import Mathlib

/-!
Verification of the cubeland chunk pipeline: a shallow embedding of the
terrain generator (`terrain.rs`), the greedy mesher (`mesh.rs`), the chunk
cache/loader (`chunk.rs`) and the render-loop chunk selection and view query
(`main.rs`), together with theorems checking the specification's claims.

Numeric conventions: the Rust code computes noise and thresholds in `f64`
(and vertex data in `f32`); every floating-point value appearing here is a
dyadic rational of small magnitude for which the arithmetic performed by the
code (addition, subtraction, multiplication, comparison against constants)
is exact, so those values are modelled as `ℚ`.  Machine integers (`int`,
`i64`, `uint`) are modelled as `ℤ`/`ℕ`; the one place where a wrapping cast
matters (`as uint` in `BlockBitmap::index`) takes the value modulo `2 ^ 64`
explicitly.
-/

namespace Cubeland

/-- Chunk edge length, `CHUNK_SIZE` in `main.rs` (64 voxels). -/
def CHUNK_SIZE : ℤ := 64

/-- Block types from `terrain.rs` (`enum BlockType`), with their `u8`
discriminants recoverable through `BlockType.val`. -/
inductive BlockType where
  | BlockAir
  | BlockGrass
  | BlockStone
  | BlockDirt
  | BlockWater
deriving DecidableEq, Repr

/-- Numeric value of a block type (`BlockType` is `repr(u8)`; the mesher
stores `block.blocktype as f32` in the vertex buffer). -/
def BlockType.val : BlockType → ℕ
  | .BlockAir => 0
  | .BlockGrass => 1
  | .BlockStone => 2
  | .BlockDirt => 3
  | .BlockWater => 4

/-- Opacity test from `terrain.rs`: `Block::is_opaque` is
`self.blocktype != BlockAir`.  Note that `BlockWater` is opaque under this
definition. -/
def BlockType.is_opaque (b : BlockType) : Bool := b ≠ BlockType.BlockAir

/-- Sea level constant `water_height` from `TerrainGenerator::gen`. -/
def water_height : ℚ := -12

/-- Soil depth constant `dirt_height` from `TerrainGenerator::gen`. -/
def dirt_height : ℚ := 4

/-- Per-voxel block classification from `TerrainGenerator::gen`
(terrain.rs lines 112-161), as a function of the voxel's world height
`vy = v.y`, the column height `h = height`, and the trilinearly interpolated
density `d`.  The three `let` steps mirror the three successive mutations of
the local `blocktype` variable; the density interpolation itself is factored
out (the code only evaluates it in the carve branch, which cannot change the
resulting value). -/
def genBlockType (vy h d : ℚ) : BlockType :=
  let b1 : BlockType :=
    if vy < h then
      if vy > h - dirt_height then
        if vy > h - 2 then .BlockGrass else .BlockDirt
      else .BlockStone
    else .BlockAir
  let b2 : BlockType :=
    if b1 = .BlockAir ∧ vy < water_height then .BlockWater else b1
  if b2 ≠ .BlockAir ∧ b2 ≠ .BlockWater ∧ d < -(0.2 : ℚ) then .BlockAir else b2

/-- The voxel classification exactly as claim C1 words it: a candidate type
chosen by vertical position, then a density carve applied only to
Stone/Dirt/Grass candidates. -/
def claimC1BlockType (vy h d : ℚ) : BlockType :=
  let cand : BlockType :=
    if vy < h then
      if vy > h - 2 then .BlockGrass
      else if vy > h - dirt_height then .BlockDirt
      else .BlockStone
    else if vy < water_height then .BlockWater else .BlockAir
  if (cand = .BlockStone ∨ cand = .BlockDirt ∨ cand = .BlockGrass) ∧ d < -(0.2 : ℚ)
  then .BlockAir else cand

/-! ### Chunk cache / loader (`chunk.rs`) -/

/-- Cache capacity, `MAX_CHUNKS` in `chunk.rs`. -/
def MAX_CHUNKS : ℕ := 32

/-- One cache entry: the chunk key `(x, z)` paired with the chunk's
`used_time` stamp.  The Rust `Chunk` also carries its voxel map and GL
buffer handles, which the loader's bookkeeping never inspects, so the model
keeps only the data the loader reads.  The `HashMap` is modelled as a list
of entries in iteration order, with key lookups by exact equality. -/
abbrev CacheEntry := (ℤ × ℤ) × ℕ

/-- The fold underlying `cache.iter().min_by(|&(_, chunk)| chunk.used_time)`:
keep the current candidate unless a strictly smaller `used_time` appears. -/
def minFold (es : List CacheEntry) (a : CacheEntry) : CacheEntry :=
  es.foldl (fun acc e => if e.2 < acc.2 then e else acc) a

/-- Iterator minimum `min_by` on `used_time`: `none` on an empty cache. -/
def minByUsed : List CacheEntry → Option CacheEntry
  | [] => none
  | e :: es => some (minFold es e)

/-- One iteration of the eviction loop body: look up the entry with minimal
`used_time` and remove its key (`self.cache.remove(&k)`). -/
def evictOnce (cache : List CacheEntry) : List CacheEntry :=
  match minByUsed cache with
  | none => cache
  | some m => cache.filter (fun e => e.1 ≠ m.1)

/-- The eviction loop `while self.cache.len() > MAX_CHUNKS` from
`ChunkLoader::update` (chunk.rs lines 63-66).  Each iteration removes at
least one entry, so `cache.length` steps of fuel always suffice for the
loop to reach its exit condition. -/
def evictGo : ℕ → List CacheEntry → List CacheEntry
  | 0, cache => cache
  | fuel + 1, cache =>
      if MAX_CHUNKS < cache.length then evictGo fuel (evictOnce cache) else cache

/-- The complete eviction pass at the end of `ChunkLoader::update`. -/
def evictLoop (cache : List CacheEntry) : List CacheEntry :=
  evictGo cache.length cache

/-- Key membership, `self.cache.contains_key(&(cx, cz))`. -/
def containsKey (cache : List CacheEntry) (k : ℤ × ℤ) : Bool :=
  cache.any (fun e => e.1 = k)

/-- Chunk::touch: refresh the entry's `used_time` to the current
`precise_time_ns` reading. -/
def touchKey (cache : List CacheEntry) (k : ℤ × ℤ) (now : ℕ) : List CacheEntry :=
  cache.map (fun e => if e.1 = k then (e.1, now) else e)

/-- Rounding a world coordinate down to its chunk origin:
`x & !(CHUNK_SIZE as i64 - 1)` clears the low six bits of the two's
complement representation, i.e. subtracts the nonnegative remainder of `x`
modulo 64. -/
def chunkAlign (x : ℤ) : ℤ := x - x.emod 64

/-- Loader state threaded through `ChunkLoader::update`: the cache plus a
clock supplying strictly increasing `precise_time_ns` readings. -/
structure LoaderState where
  cache : List CacheEntry
  clock : ℕ

/-- The body of the double scan loop in `ChunkLoader::update` (chunk.rs
lines 45-61) for one offset pair `(ix, iz)`: generate-and-insert the first
missing chunk only (the `loaded` flag), touch chunks already present.
`chunk_gen` is pure terrain+mesh generation; the inserted entry records the
key and the fresh `used_time` the new chunk is stamped with. -/
def updateScanStep (x z : ℤ) (acc : LoaderState × Bool) (off : ℤ × ℤ) :
    LoaderState × Bool :=
  let st := acc.1
  let loaded := acc.2
  let cx := chunkAlign x + off.1 * CHUNK_SIZE
  let cz := chunkAlign z + off.2 * CHUNK_SIZE
  if ¬ containsKey st.cache (cx, cz) then
    if ¬ loaded then
      (⟨st.cache ++ [((cx, cz), st.clock)], st.clock + 1⟩, true)
    else acc
  else
    (⟨touchKey st.cache (cx, cz) st.clock, st.clock + 1⟩, loaded)

/-- Offset pairs scanned by `ChunkLoader::update`:
`range_inclusive(-(WORLD_SIZE as i64)/2, (WORLD_SIZE as i64)/2)` in both
axes.  `WORLD_SIZE` is a crate-root constant whose defining module is not
part of this snapshot, so the model takes the world size `W` as an explicit
parameter. -/
def scanOffsets (W : ℕ) : List (ℤ × ℤ) :=
  (List.range (W / 2 * 2 + 1)).flatMap (fun (i : ℕ) =>
    (List.range (W / 2 * 2 + 1)).map (fun (j : ℕ) =>
      ((i : ℤ) - ((W / 2 : ℕ) : ℤ), (j : ℤ) - ((W / 2 : ℕ) : ℤ))))

/-- `ChunkLoader::update`: scan the world window around `(x, z)`, loading at
most one missing chunk and touching resident ones, then run the eviction
loop. -/
def ChunkLoader.update (W : ℕ) (st : LoaderState) (x z : ℤ) : LoaderState :=
  let scanned := ((scanOffsets W).foldl (updateScanStep x z) (st, false)).1
  ⟨evictLoop scanned.cache, scanned.clock⟩

/-- Concrete 33-entry cache exercising the eviction theorem. -/
def evictWitnessCache : List CacheEntry :=
  (List.range 33).map (fun (i : ℕ) => (((i : ℤ), (0 : ℤ)), i))

/-! ### Render loop chunk requests, LOD fallback, view query (`main.rs`) -/

/-- View radius in chunks, `VISIBLE_RADIUS` in `main.rs`. -/
def VISIBLE_RADIUS : ℕ := 4

/-- LOD distance scale, `LOD_FACTOR` in `main.rs` (the `f32` 150.0). -/
def LOD_FACTOR : ℕ := 150

/-- Cache key used by the render loop's chunk cache: `(cx, cz, lod)`. -/
abbrev LodKey := ℤ × ℤ × ℕ

/-- Entry of the render loop's chunk cache: key plus `used_time`; as with
the other loader, the chunk payload itself is never read by the
bookkeeping modelled here. -/
abbrev LodEntry := LodKey × ℕ

/-- `chunk_loader.cache.contains_key(&(cx, cz, lod))`. -/
def containsLodKey (cache : List LodEntry) (k : LodKey) : Bool :=
  cache.any (fun e => e.1 = k)

/-- Refreshing `used_time` of the entry at key `k` (`chunk.touch()`). -/
def touchLod (cache : List LodEntry) (k : LodKey) (now : ℕ) : List LodEntry :=
  cache.map (fun e => if e.1 = k then (e.1, now) else e)

/-- Reading the `used_time` of the entry at key `k`, if present. -/
def lookupUsed (cache : List LodEntry) (k : LodKey) : Option ℕ :=
  (cache.find? (fun e => e.1 = k)).map (fun e => e.2)

/-- `HashMap::insert` at key `k`: replace the resident entry (the fresh
chunk carries a fresh `used_time`) or append a new one. -/
def insertLod (cache : List LodEntry) (k : LodKey) (now : ℕ) : List LodEntry :=
  if containsLodKey cache k then touchLod cache k now else cache ++ [(k, now)]

/-- Render-loop state: the loader's cache and the `needed_chunks` pending
list from `main`. -/
structure RenderState where
  cache : List LodEntry
  needed : List LodKey

/-- The `while found_lod < 5` scan of `main.rs` lines 288-293, with fuel
`5 - found_lod`: stop at the first LOD index whose key is cached. -/
def findLodGo (cache : List LodEntry) (cx cz : ℤ) : ℕ → ℕ → ℕ
  | 0, l => l
  | fuel + 1, l =>
      if containsLodKey cache (cx, cz, l) then l
      else findLodGo cache cx cz fuel (l + 1)

/-- The complete fallback scan: `found_lod` starts at 0. -/
def findLod (cache : List LodEntry) (cx cz : ℤ) : ℕ :=
  findLodGo cache cx cz 5 0

/-- One iteration of the per-coordinate render body (`main.rs` lines
280-326) for the wanted key `c = (cx, cz, lod)`: if `c` is absent, enqueue
it into `needed_chunks` unless already pending and scan for a fallback LOD;
if present, use the requested LOD.  Then look up `(cx, cz, found_lod)`;
when found, touch it (this is the key subsequently rendered, up to view
frustum culling).  Returns the new state and the selected key, if any.
In the cached branch the looked-up key `(cx, cz, found_lod)` is `c` itself
(`found_lod = lod`), so that branch is written directly. -/
def requestStep (st : RenderState) (c : LodKey) (now : ℕ) :
    RenderState × Option LodKey :=
  if containsLodKey st.cache c then
    (⟨touchLod st.cache c now, st.needed⟩, some c)
  else
    let found_lod := findLod st.cache c.1 c.2.1
    let needed' := if c ∈ st.needed then st.needed else st.needed ++ [c]
    if containsLodKey st.cache (c.1, c.2.1, found_lod) then
      (⟨touchLod st.cache (c.1, c.2.1, found_lod) now, needed'⟩,
        some (c.1, c.2.1, found_lod))
    else (⟨st.cache, needed'⟩, none)

/-- Modelled from the spec: `chunk_loader.load(cx, cz, lod)` (`main.rs`
line 339) belongs to a loader variant that is not part of this snapshot
(the `chunk.rs` present here exposes only `update`).  Following spec §4.3
and the synchronous `chunk_gen` of `chunk.rs`, loading the shifted front
pending coordinate generates its chunk and inserts it into the cache with a
fresh `used_time`. -/
def loadStep (st : RenderState) (now : ℕ) : RenderState :=
  match st.needed with
  | [] => st
  | c :: rest => ⟨insertLod st.cache c now, rest⟩

/-- Spec §3 invariant 4 for the render loop state: the pending list has no
duplicates and no pending coordinate is already cached. -/
def RenderInv (st : RenderState) : Prop :=
  st.needed.Nodup ∧ ∀ c ∈ st.needed, containsLodKey st.cache c = false

/-- Squared norm of a chunk-offset vector. -/
def sqNorm (v : ℤ × ℤ) : ℤ := v.1 * v.1 + v.2 * v.2

/-- Enumeration key of the view query: squared distance first, ties broken
by the fixed lexicographic coordinate order. -/
def spiralLE (v w : ℤ × ℤ) : Bool :=
  sqNorm v < sqNorm w ∨ (sqNorm v = sqNorm w ∧
    (v.1 < w.1 ∨ (v.1 = w.1 ∧ v.2 ≤ w.2)))

/-- Modelled from the spec: the iterator `Spiral` consumed by
`visible_chunks` lives in `src/spiral.rs`, which is not part of this
snapshot (`main.rs` declares `mod spiral`).  Spec §4.4 describes the
enumeration it drives: chunk offsets whose center lies within the
configured radius of the eye's chunk (squared-distance comparison against
radius², no square root), ordered by non-decreasing squared distance with
ties broken by a fixed enumeration order.  `spiralOffsets r` is that list;
the `num_chunks = (2r+1)²` count passed to `Spiral::new` corresponds to the
radius `r = VISIBLE_RADIUS`. -/
def spiralOffsets (r : ℕ) : List (ℤ × ℤ) :=
  (((List.range (2 * r + 1)).flatMap (fun (i : ℕ) =>
      (List.range (2 * r + 1)).map (fun (j : ℕ) =>
        (((i : ℤ) - (r : ℤ)), ((j : ℤ) - (r : ℤ)))))).filter
    (fun v => sqNorm v ≤ (r : ℤ) * (r : ℤ))).mergeSort spiralLE

/-- `visible_chunks` from `main.rs` lines 357-370: map each offset to its
chunk origin and derive the LOD index from the Euclidean distance.  The
`f32` square root and the `as uint` floor are modelled exactly by
`Nat.sqrt` and natural division (`⌊⌊√D⌋ / 150⌋ = ⌊√D / 150⌋`). -/
def visible_chunks (x z : ℤ) : List (ℤ × ℤ × ℕ) :=
  (spiralOffsets VISIBLE_RADIUS).map (fun v =>
    let cx := chunkAlign x + v.1 * CHUNK_SIZE
    let cz := chunkAlign z + v.2 * CHUNK_SIZE
    let lod := Nat.sqrt ((cx - x) * (cx - x) + (cz - z) * (cz - z)).toNat / LOD_FACTOR
    (cx, cz, lod))

/-- Concrete render state: LOD 1 of chunk (0,0) cached, chunk (64,0,0)
pending. -/
def renderWitnessState : RenderState :=
  ⟨[(((0 : ℤ), (0 : ℤ), (1 : ℕ)), 5)], [((64 : ℤ), (0 : ℤ), (0 : ℕ))]⟩

/-! ### Terrain generation (`terrain.rs`) -/

/-- Terrain grid: `(CHUNK_SIZE+2)³` blocks with one voxel of halo on every
face.  `Terrain::get` computes `blocks[(x+1)][(y+1)][(z+1)]`; the model
stores the grid as a function of the block coordinates themselves (the `+1`
storage offset is invisible through `get`/`get_mut`).  The generator writes
and the mesher reads only coordinates in `[-1, CHUNK_SIZE]`. -/
def Terrain : Type := ℤ → ℤ → ℤ → BlockType

/-- `Terrain::get` (halo lookup). -/
def Terrain.get (t : Terrain) (x y z : ℤ) : BlockType := t x y z

/-- The two `Perlin` noise sources of `TerrainGenerator`.  The `noise`
crate is an external dependency; its pure `get(x, y, z)` sampling functions
are modelled as arbitrary rational-valued functions, which is all `gen`
relies on. -/
structure TerrainGenerator where
  density : ℚ → ℚ → ℚ → ℚ
  height : ℚ → ℚ → ℚ → ℚ

/-- The coarse density lattice built at the top of `TerrainGenerator::gen`:
a `(CHUNK_SIZE/4 + 3)³ = 19³` array initialised to `0.0`, whose entries
`[density_x+1][density_y+1][density_z+1]` for `density_*` in `[-1, 16]` are
filled with density noise sampled every 4th voxel (`p + density_* * 4`).
Plane 18 on each axis is never written and keeps the initial `0.0`. -/
def densityLattice (g : TerrainGenerator) (p : ℚ × ℚ × ℚ) (i j k : ℕ) : ℚ :=
  if i ≤ 17 ∧ j ≤ 17 ∧ k ≤ 17 then
    g.density (p.1 + ((i : ℚ) - 1) * 4) (p.2.1 + ((j : ℚ) - 1) * 4)
      (p.2.2 + ((k : ℚ) - 1) * 4)
  else 0

/-- Rust `f64::trunc` on a rational: round toward zero. -/
def rustTrunc (q : ℚ) : ℤ := if 0 ≤ q then ⌊q⌋ else -⌊-q⌋

/-- Rust `f64::fract`: `q - q.trunc()` (negative for negative `q`). -/
def rustFract (q : ℚ) : ℚ := q - rustTrunc q

/-- The interpolation weight `(block_* as f64 / 4.0).fract()`. -/
def rustFract4 (b : ℤ) : ℚ := rustFract ((b : ℚ) / 4)

/-- The lattice index `(block_* + 4) / 4` (integer division, then `as
uint`).  Both operands are nonnegative for every block coordinate in the
haloed range, so Lean's division agrees with Rust's truncating division. -/
def latIdx (b : ℤ) : ℕ := ((b + 4) / 4).toNat

/-- The trilinear interpolation of the lower-resolution density from
`TerrainGenerator::gen` (terrain.rs lines 133-156), reading the eight
lattice corners `d???` with the weights of the source. -/
def trilinear (den : ℕ → ℕ → ℕ → ℚ) (bx vy bz : ℤ) : ℚ :=
  den (latIdx bx) (latIdx vy) (latIdx bz) *
      (1 - rustFract4 bx) * (1 - rustFract4 vy) * (1 - rustFract4 bz) +
    den (latIdx bx) (latIdx vy) (latIdx bz + 1) *
      (1 - rustFract4 bx) * (1 - rustFract4 vy) * rustFract4 bz +
    den (latIdx bx) (latIdx vy + 1) (latIdx bz) *
      (1 - rustFract4 bx) * rustFract4 vy * (1 - rustFract4 bz) +
    den (latIdx bx) (latIdx vy + 1) (latIdx bz + 1) *
      (1 - rustFract4 bx) * rustFract4 vy * rustFract4 bz +
    den (latIdx bx + 1) (latIdx vy) (latIdx bz) *
      rustFract4 bx * (1 - rustFract4 vy) * (1 - rustFract4 bz) +
    den (latIdx bx + 1) (latIdx vy) (latIdx bz + 1) *
      rustFract4 bx * (1 - rustFract4 vy) * rustFract4 bz +
    den (latIdx bx + 1) (latIdx vy + 1) (latIdx bz) *
      rustFract4 bx * rustFract4 vy * (1 - rustFract4 bz) +
    den (latIdx bx + 1) (latIdx vy + 1) (latIdx bz + 1) *
      rustFract4 bx * rustFract4 vy * rustFract4 bz

/-- `TerrainGenerator::gen`: for every haloed coordinate, compute the
column height from the height noise, the interpolated density, and the
per-voxel classification; the voxel grid starts as all-Air and only
non-Air results are written, which coincides with writing every result. -/
def TerrainGenerator.gen (g : TerrainGenerator) (p : ℚ × ℚ × ℚ) : Terrain :=
  fun bx vy bz =>
    if -1 ≤ bx ∧ bx ≤ CHUNK_SIZE ∧ -1 ≤ vy ∧ vy ≤ CHUNK_SIZE ∧
        -1 ≤ bz ∧ bz ≤ CHUNK_SIZE then
      genBlockType (p.2.1 + (vy : ℚ))
        (g.height (p.1 + (bx : ℚ)) 0 (p.2.2 + (bz : ℚ)) * 100)
        (trilinear (densityLattice g p) bx vy bz)
    else BlockType.BlockAir

/-- A generator whose noise fields are the constant 1 (so a lattice entry
holding `0` visibly holds the initial value, not a noise sample). -/
def gOne : TerrainGenerator := ⟨fun _ _ _ => 1, fun _ _ _ => 1⟩

/-- The chunk origin `(0, 0, 0)`. -/
def pZero : ℚ × ℚ × ℚ := (0, 0, 0)

/-- Claim C8 as stated: every lattice index the interpolation reads, at
every haloed block coordinate, lies in the written range `[0, 17]`. -/
def claimC8Reads : Prop :=
  ∀ b : ℤ, -1 ≤ b → b ≤ 64 → latIdx b ≤ 17 ∧ latIdx b + 1 ≤ 17

/-! ### Greedy mesher (`mesh.rs`) -/

/-- `Vec3<int>` as used by the mesher. -/
abbrev V3 := ℤ × ℤ × ℤ

/-- `Vec3::add_v`. -/
def addV (a b : V3) : V3 := (a.1 + b.1, a.2.1 + b.2.1, a.2.2 + b.2.2)

/-- `Vec3::sub_v`. -/
def subV (a b : V3) : V3 := (a.1 - b.1, a.2.1 - b.2.1, a.2.2 - b.2.2)

/-- `Vec3::mul_s` (scalar on the left for readability). -/
def smulV (c : ℤ) (v : V3) : V3 := (c * v.1, c * v.2.1, c * v.2.2)

/-- `Vec3::dot`. -/
def dotV (a b : V3) : ℤ := a.1 * b.1 + a.2.1 * b.2.1 + a.2.2 * b.2.2

/-- `Terrain::get` at a packed coordinate. -/
def Terrain.getV (t : Terrain) (v : V3) : BlockType := t v.1 v.2.1 v.2.2

/-- One of the six `Face` descriptors of `mesh.rs`: position in the
`faces` array, integer face normal (`face_normal_int`), the three scan
axes, and the four corner vertices of the emitted quad. -/
structure Face where
  faceIndex : ℕ
  normal : V3
  di : V3
  dj : V3
  dk : V3
  vertices : List (ℚ × ℚ × ℚ)

/-- The `front` face (+z). -/
def faceFront : Face :=
  ⟨0, (0, 0, 1), (0, 0, 1), (1, 0, 0), (0, 1, 0),
    [(0, 0, 1), (1, 0, 1), (0, 1, 1), (1, 1, 1)]⟩

/-- The `back` face (-z). -/
def faceBack : Face :=
  ⟨1, (0, 0, -1), (0, 0, 1), (1, 0, 0), (0, 1, 0),
    [(1, 0, 0), (0, 0, 0), (1, 1, 0), (0, 1, 0)]⟩

/-- The `right` face (+x). -/
def faceRight : Face :=
  ⟨2, (1, 0, 0), (1, 0, 0), (0, 1, 0), (0, 0, 1),
    [(1, 0, 1), (1, 0, 0), (1, 1, 1), (1, 1, 0)]⟩

/-- The `left` face (-x). -/
def faceLeft : Face :=
  ⟨3, (-1, 0, 0), (1, 0, 0), (0, 1, 0), (0, 0, 1),
    [(0, 0, 0), (0, 0, 1), (0, 1, 0), (0, 1, 1)]⟩

/-- The `top` face (+y). -/
def faceTop : Face :=
  ⟨4, (0, 1, 0), (0, 1, 0), (1, 0, 0), (0, 0, 1),
    [(0, 1, 1), (1, 1, 1), (0, 1, 0), (1, 1, 0)]⟩

/-- The `bottom` face (-y). -/
def faceBottom : Face :=
  ⟨5, (0, -1, 0), (0, 1, 0), (1, 0, 0), (0, 0, 1),
    [(0, 0, 0), (1, 0, 0), (0, 0, 1), (1, 0, 1)]⟩

/-- The static `faces` array of `mesh.rs`. -/
def faces (i : Fin 6) : Face :=
  match i with
  | ⟨0, _⟩ => faceFront
  | ⟨1, _⟩ => faceBack
  | ⟨2, _⟩ => faceRight
  | ⟨3, _⟩ => faceLeft
  | ⟨4, _⟩ => faceTop
  | ⟨5, _⟩ => faceBottom

/-- The static `face_elements` array (two triangles per quad). -/
def face_elements : List ℕ := [0, 1, 2, 3, 2, 1]

/-- `BlockBitmap::index`: `(x*CHUNK_SIZE*CHUNK_SIZE + y*CHUNK_SIZE + z) as
uint`, the cast wrapping into `2⁶⁴`. -/
def bbIndex (x y z : ℤ) : ℕ :=
  ((x * CHUNK_SIZE * CHUNK_SIZE + y * CHUNK_SIZE + z).emod (2 ^ 64)).toNat

/-- `BlockBitmap::index` at a packed coordinate. -/
def bbIndexV (v : V3) : ℕ := bbIndex v.1 v.2.1 v.2.2

/-- The interior voxel cube `[0, CHUNK_SIZE)³` scanned by the mesher. -/
def interiorV (v : V3) : Prop :=
  0 ≤ v.1 ∧ v.1 < CHUNK_SIZE ∧ 0 ≤ v.2.1 ∧ v.2.1 < CHUNK_SIZE ∧
    0 ≤ v.2.2 ∧ v.2.2 < CHUNK_SIZE

instance (v : V3) : Decidable (interiorV v) := by
  unfold interiorV; infer_instance

/-- The triple-nested `0..CHUNK_SIZE` loops of `Mesh::gen`, as the list of
visited coordinate triples. -/
def scanTriples : List V3 :=
  (List.range 64).flatMap (fun (x : ℕ) =>
    (List.range 64).flatMap (fun (y : ℕ) =>
      (List.range 64).map (fun (z : ℕ) => ((x : ℤ), (y : ℤ), (z : ℤ)))))

/-- The exposure test of the mask-building loop (mesh.rs lines 80-95): the
block is not Air and its neighbour in the face-normal direction is not
opaque. -/
def exposedB (t : Terrain) (f : Face) (v : V3) : Bool :=
  !(t.getV v = BlockType.BlockAir) && ! BlockType.is_opaque (t.getV (addV v f.normal))

/-- The `unmeshed_faces` bitmap after the mask-building loop: insert the
index of every exposed interior voxel. -/
def buildMask (t : Terrain) (f : Face) : Finset ℕ :=
  scanTriples.foldl
    (fun s v => if exposedB t f v then insert (bbIndexV v) s else s) ∅

/-- The body of `run_length`'s `while` loop, with fuel `max_len - len`:
advance `p` by `dp`; stop unless the next voxel is still unmeshed and of
the same block type. -/
def runLengthGo (t : Terrain) (s : Finset ℕ) (bt : BlockType) (dp : V3) :
    ℕ → V3 → ℤ → ℤ
  | 0, _, len => len
  | fuel + 1, q, len =>
      if bbIndexV (addV q dp) ∈ s then
        if t.getV (addV q dp) = bt then
          runLengthGo t s bt dp fuel (addV q dp) (len + 1)
        else len
      else len

/-- `run_length` from `mesh.rs` lines 210-235. -/
def run_length (t : Terrain) (s : Finset ℕ) (p dp : V3) : ℤ :=
  let bt := t.getV p
  let max_len := dotV (subV (CHUNK_SIZE, CHUNK_SIZE, CHUNK_SIZE) p) dp
  runLengthGo t s bt dp (max_len - 1).toNat p 1

/-- `expand_face` from `mesh.rs` lines 195-208: extend first along `dk`,
then take the minimum `dj` run over all `dk` offsets.  `len_k ≥ 1` always,
so the `min().unwrap()` never panics; the model's default 1 is dead. -/
def expand_face (t : Terrain) (s : Finset ℕ) (f : Face) (p : V3) : V3 :=
  let len_k := run_length t s p f.dk
  let len_j :=
    match ((List.range len_k.toNat).map (fun (k : ℕ) =>
      run_length t s (addV p (smulV (k : ℤ) f.dk)) f.dj)).min? with
    | some m => m
    | none => 1
  addV (addV (1, 1, 1) (smulV (len_k - 1) f.dk)) (smulV (len_j - 1) f.dj)

/-- Layout of one emitted vertex (`struct VertexData`): position and the
block type scalar. -/
structure VertexData where
  position : ℚ × ℚ × ℚ
  blocktype : ℕ
deriving DecidableEq

/-- Componentwise product (`Vec3::mul_v`). -/
def vmulQ (a b : ℚ × ℚ × ℚ) : ℚ × ℚ × ℚ :=
  (a.1 * b.1, a.2.1 * b.2.1, a.2.2 * b.2.2)

/-- Componentwise sum on rational triples. -/
def vaddQ (a b : ℚ × ℚ × ℚ) : ℚ × ℚ × ℚ :=
  (a.1 + b.1, a.2.1 + b.2.1, a.2.2 + b.2.2)

/-- A `Vec3<int>` as an `f32` vector. -/
def v3toQ (v : V3) : ℚ × ℚ × ℚ := ((v.1 : ℚ), (v.2.1 : ℚ), (v.2.2 : ℚ))

/-- State of the greedy scan for one face: the `unmeshed_faces` bitmap,
the growing vertex and element buffers, and the record of emitted quads
(each quad is determined by its `block_position` and `dim`). -/
structure MeshSt where
  mask : Finset ℕ
  vertices : List VertexData
  elements : List ℕ
  rects : List (V3 × V3)

/-- The enumeration of box offsets of the unmeshing loop (`dx/dy/dz` in
`0..dim`). -/
def boxTriples (dim : V3) : List V3 :=
  (List.range dim.1.toNat).flatMap (fun (dx : ℕ) =>
    (List.range dim.2.1.toNat).flatMap (fun (dy : ℕ) =>
      (List.range dim.2.2.toNat).map (fun (dz : ℕ) =>
        ((dx : ℤ), (dy : ℤ), (dz : ℤ)))))

/-- The unmeshing loop: remove every voxel of the merged rectangle from the
bitmap. -/
def removeBox (s : Finset ℕ) (p dim : V3) : Finset ℕ :=
  (boxTriples dim).foldl (fun s' d => s'.erase (bbIndexV (addV p d))) s

/-- The scan position `face.di.mul_s(i).add_v(face.dj.mul_s(j)).add_v(face.dk.mul_s(k))`. -/
def scanPos (f : Face) (u : V3) : V3 :=
  addV (addV (smulV u.1 f.di) (smulV u.2.1 f.dj)) (smulV u.2.2 f.dk)

/-- The four vertices emitted for one merged rectangle: each face corner
scaled by `dim`, translated to the block position, tagged with the block
type at the base voxel. -/
def quadVerts (t : Terrain) (f : Face) (r : V3 × V3) : List VertexData :=
  f.vertices.map (fun v =>
    ⟨vaddQ (vmulQ v (v3toQ r.2)) (v3toQ r.1), (t.getV r.1).val⟩)

/-- One iteration of the greedy scan (mesh.rs lines 100-140): if the scan
position is still unmeshed, expand a maximal rectangle there, unmesh it,
and emit its four vertices and six element indices. -/
def meshScanStep (t : Terrain) (f : Face) (st : MeshSt) (u : V3) : MeshSt :=
  let pos := scanPos f u
  if bbIndexV pos ∈ st.mask then
    let dim := expand_face t st.mask f pos
    { mask := removeBox st.mask pos dim,
      vertices := st.vertices ++ quadVerts t f (pos, dim),
      elements := st.elements ++ face_elements.map
        (fun e => st.vertices.length + e),
      rects := st.rects ++ [(pos, dim)] }
  else st

/-- The rectangles emitted during the face-`f` pass of `Mesh::gen`. -/
def faceRects (t : Terrain) (f : Face) : List (V3 × V3) :=
  (scanTriples.foldl (meshScanStep t f) ⟨buildMask t f, [], [], []⟩).rects

/-- The output of `Mesh::gen` before `finish`: vertex and element buffers
plus the per-face `(start, count)` element ranges (the GL buffer handles
are created later by `finish` and carry no generation data). -/
structure MeshData where
  vertices : List VertexData
  elements : List ℕ
  face_ranges : List (ℕ × ℕ)
deriving DecidableEq

/-- The per-face pass of `Mesh::gen`: remember the element count, build the
fresh exposure bitmap, run the greedy scan, and record the face's element
range. -/
def meshGenFace (t : Terrain) (acc : MeshData) (f : Face) : MeshData :=
  let start := acc.elements.length
  let st := scanTriples.foldl (meshScanStep t f)
    ⟨buildMask t f, acc.vertices, acc.elements, []⟩
  ⟨st.vertices, st.elements,
    acc.face_ranges ++ [(start, st.elements.length - start)]⟩

/-- `Mesh::gen`: run the greedy pass for all six faces in order. -/
def Mesh.gen (t : Terrain) : MeshData :=
  (List.ofFn faces).foldl (meshGenFace t) ⟨[], [], []⟩

/-- Membership of a voxel in an emitted rectangle (the cells the unmeshing
loop visits). -/
def inBoxP (r : V3 × V3) (v : V3) : Prop :=
  r.1.1 ≤ v.1 ∧ v.1 < r.1.1 + r.2.1 ∧
    r.1.2.1 ≤ v.2.1 ∧ v.2.1 < r.1.2.1 + r.2.2.1 ∧
    r.1.2.2 ≤ v.2.2 ∧ v.2.2 < r.1.2.2 + r.2.2.2

instance (r : V3 × V3) (v : V3) : Decidable (inBoxP r v) := by
  unfold inBoxP; infer_instance

/-- A voxel face is exposed: interior, and exposed per the mask test. -/
def exposedP (t : Terrain) (f : Face) (v : V3) : Prop :=
  interiorV v ∧ exposedB t f v = true

/-- A voxel is covered by one of the emitted rectangles. -/
def coveredP (rects : List (V3 × V3)) (v : V3) : Prop :=
  ∃ r ∈ rects, inBoxP r v

/-- The geometric facts about a face's scan axes used by the partition
proof: the scan position permutes the interior cube; stepping along `dj` or
`dk` preserves interiority within the `max_len` bound; the dot products
with the axes read off coordinates; and an emitted rectangle decomposes
into `dj`/`dk` offsets from its base. -/
structure AxesFacts (f : Face) : Prop where
  interior_scan : ∀ u : V3, interiorV u → interiorV (scanPos f u)
  scan_surj : ∀ v : V3, interiorV v → ∃ u : V3, interiorV u ∧ scanPos f u = v
  dot_bound_j : ∀ q : V3, interiorV q → 0 ≤ dotV q f.dj ∧ dotV q f.dj ≤ 63
  dot_bound_k : ∀ q : V3, interiorV q → 0 ≤ dotV q f.dk ∧ dotV q f.dk ≤ 63
  step_j : ∀ (q : V3) (s : ℤ), interiorV q → 0 ≤ s → dotV q f.dj + s ≤ 63 →
    interiorV (addV q (smulV s f.dj))
  step_k : ∀ (q : V3) (s : ℤ), interiorV q → 0 ≤ s → dotV q f.dk + s ≤ 63 →
    interiorV (addV q (smulV s f.dk))
  dot_step_j : ∀ (q : V3) (s : ℤ),
    dotV (addV q (smulV s f.dj)) f.dj = dotV q f.dj + s
  dot_step_k : ∀ (q : V3) (s : ℤ),
    dotV (addV q (smulV s f.dk)) f.dk = dotV q f.dk + s
  maxlen_j : ∀ p : V3,
    dotV (subV (CHUNK_SIZE, CHUNK_SIZE, CHUNK_SIZE) p) f.dj = 64 - dotV p f.dj
  maxlen_k : ∀ p : V3,
    dotV (subV (CHUNK_SIZE, CHUNK_SIZE, CHUNK_SIZE) p) f.dk = 64 - dotV p f.dk
  box_iff : ∀ (p : V3) (lj lk : ℤ), 1 ≤ lj → 1 ≤ lk → ∀ v : V3,
    (inBoxP (p, addV (addV (1, 1, 1) (smulV (lk - 1) f.dk))
        (smulV (lj - 1) f.dj)) v ↔
      ∃ a b : ℤ, 0 ≤ a ∧ a < lj ∧ 0 ≤ b ∧ b < lk ∧
        v = addV (addV p (smulV b f.dk)) (smulV a f.dj))

/-- The invariant of the greedy scan for one face: the bitmap holds
exactly the exposed voxels not yet covered; every emitted rectangle
consists of exposed voxels; the rectangles are pairwise disjoint; and
every exposed-but-uncovered voxel still has its scan triple ahead. -/
def ScanInv (t : Terrain) (f : Face) (rem : List V3) (st : MeshSt) : Prop :=
  (∀ n, n ∈ st.mask ↔
    ∃ v, exposedP t f v ∧ ¬ coveredP st.rects v ∧ bbIndexV v = n) ∧
  (∀ r ∈ st.rects, ∀ v, inBoxP r v → exposedP t f v) ∧
  List.Pairwise (fun r r' => ∀ v, ¬ (inBoxP r v ∧ inBoxP r' v)) st.rects ∧
  (∀ v, exposedP t f v → ¬ coveredP st.rects v →
    ∃ u, u ∈ rem ∧ interiorV u ∧ scanPos f u = v)

/-- The claim's exposure predicate exactly as C3 words it: the voxel is
opaque, and the neighbour is non-opaque with Water counting as non-opaque
for the face-culling test. -/
def claimC3Exposed (t : Terrain) (f : Face) (v : V3) : Prop :=
  t.getV v ≠ BlockType.BlockAir ∧
    (t.getV (addV v f.normal) = BlockType.BlockAir ∨
      t.getV (addV v f.normal) = BlockType.BlockWater)

/-- A two-voxel terrain: Grass at the origin with Water in front of it. -/
def tC3 : Terrain := fun x y z =>
  if x = 0 ∧ y = 0 ∧ z = 0 then BlockType.BlockGrass
  else if x = 0 ∧ y = 0 ∧ z = 1 then BlockType.BlockWater
  else BlockType.BlockAir

/-- C1: for every voxel, the generator's classification agrees with the
claimed one: below the column height the candidate is Grass above `h - 2`,
Dirt above `h - dirt_height`, else Stone; at or above the column height it
is Air unless below `water_height`, in which case Water; and the density
carve (threshold `-0.2`) turns only Stone/Dirt/Grass candidates into Air,
never Water or Air. -/
theorem c1_terrain_classification (vy h d : ℚ) :
    genBlockType vy h d = claimC1BlockType vy h d := by
  simp only [genBlockType, claimC1BlockType, dirt_height, water_height]
  split_ifs <;> first
    | rfl
    | (exfalso; linarith)
    | (exfalso; simp_all; linarith)
    | simp_all

/-! ### Chunk cache / loader (`chunk.rs`) -/

/-- The `minFold` result is the initial candidate or one of the folded
entries. -/
theorem minFold_mem (es : List CacheEntry) (a : CacheEntry) :
    minFold es a = a ∨ minFold es a ∈ es := by
  induction es generalizing a with
  | nil => exact Or.inl rfl
  | cons e es ih =>
      simp only [minFold, List.foldl_cons] at *
      rcases ih (if e.2 < a.2 then e else a) with h | h
      · rw [h]
        by_cases hlt : e.2 < a.2
        · simp [hlt]
        · simp [hlt]
      · exact Or.inr (List.mem_cons_of_mem _ h)

/-- The `minFold` result has `used_time` no larger than the candidate's and
than every folded entry's. -/
theorem minFold_le (es : List CacheEntry) (a : CacheEntry) :
    (minFold es a).2 ≤ a.2 ∧ ∀ x ∈ es, (minFold es a).2 ≤ x.2 := by
  induction es generalizing a with
  | nil => exact ⟨le_refl _, by simp⟩
  | cons e es ih =>
      simp only [minFold, List.foldl_cons] at *
      obtain ⟨h1, h2⟩ := ih (if e.2 < a.2 then e else a)
      constructor
      · refine le_trans h1 ?_
        by_cases hlt : e.2 < a.2 <;> simp [hlt]
        omega
      · intro x hx
        rcases List.mem_cons.mp hx with h3 | hx
        · rw [h3]
          refine le_trans h1 ?_
          by_cases hlt : e.2 < a.2 <;> simp [hlt]
          omega
        · exact h2 x hx

/-- `minByUsed` on a nonempty cache returns a member that minimises
`used_time`. -/
theorem minByUsed_spec (cache : List CacheEntry) (m : CacheEntry)
    (h : minByUsed cache = some m) :
    m ∈ cache ∧ ∀ x ∈ cache, m.2 ≤ x.2 := by
  match cache, h with
  | e :: es, h =>
      simp only [minByUsed, Option.some.injEq] at h
      subst h
      refine ⟨?_, ?_⟩
      · rcases minFold_mem es e with h | h
        · rw [h]; exact List.mem_cons_self _ _
        · exact List.mem_cons_of_mem _ h
      · intro x hx
        obtain ⟨h1, h2⟩ := minFold_le es e
        rcases List.mem_cons.mp hx with rfl | hx
        · exact h1
        · exact h2 x hx

/-- Removing the minimum entry's key removes at least one entry. -/
theorem evictOnce_length_lt (cache : List CacheEntry) (hne : cache ≠ []) :
    (evictOnce cache).length < cache.length := by
  match cache, hne with
  | e :: es, _ =>
      have hmin : minByUsed (e :: es) = some (minFold es e) := rfl
      obtain ⟨hmem, -⟩ := minByUsed_spec _ _ hmin
      simp only [evictOnce, hmin]
      refine List.length_filter_lt_length_iff_exists.mpr ?_
      exact ⟨minFold es e, hmem, by simp⟩

/-- With fuel at least `length - MAX_CHUNKS`, the eviction loop drives the
cache size to at most `MAX_CHUNKS`. -/
theorem evictGo_length_le (fuel : ℕ) (cache : List CacheEntry)
    (h : cache.length ≤ MAX_CHUNKS + fuel) :
    (evictGo fuel cache).length ≤ MAX_CHUNKS := by
  induction fuel generalizing cache with
  | zero => simpa using h
  | succ fuel ih =>
      rw [evictGo]
      split_ifs with hgt
      · refine ih _ ?_
        have hne : cache ≠ [] := by
          intro hnil; rw [hnil] at hgt; simp [MAX_CHUNKS] at hgt
        have := evictOnce_length_lt cache hne
        omega
      · omega

/-- The eviction pass always ends with at most `MAX_CHUNKS` entries. -/
theorem evictLoop_length_le (cache : List CacheEntry) :
    (evictLoop cache).length ≤ MAX_CHUNKS := by
  exact evictGo_length_le _ _ (by omega)

/-- C5: after every completed `ChunkLoader::update` call -- whatever the
starting cache contents, clock, world size and eye position -- the cache
holds at most `MAX_CHUNKS = 32` entries, so the bound holds between all
ticks. -/
theorem c5_cache_capacity_bound (W : ℕ) (st : LoaderState) (x z : ℤ) :
    (ChunkLoader.update W st x z).cache.length ≤ MAX_CHUNKS :=
  evictLoop_length_le _

/-- Entries of a nodup list that satisfy `p` and differ from a member `m`
with `p m` number one less than all entries satisfying `p`. -/
theorem countP_filter_ne_of_mem (l : List CacheEntry) (m : CacheEntry)
    (p : CacheEntry → Bool) (hnd : l.Nodup) (hm : m ∈ l) (hpm : p m = true) :
    (l.filter (fun e => e ≠ m)).countP p = l.countP p - 1 := by
  induction l with
  | nil => cases hm
  | cons a t ih =>
      obtain ⟨hnota, hndt⟩ := List.nodup_cons.mp hnd
      by_cases hae : a = m
      · have hnota' : m ∉ t := hae ▸ hnota
        have h1 : (a :: t).filter (fun e => e ≠ m) = t.filter (fun e => e ≠ m) := by
          simp [List.filter_cons, hae]
        have h2 : t.filter (fun e => e ≠ m) = t :=
          List.filter_eq_self.mpr (fun e he => by
            simp only [ne_eq, decide_eq_true_eq]
            intro hem; exact hnota' (hem ▸ he))
        rw [h1, h2, List.countP_cons_of_pos _ _ (by rw [hae]; exact hpm)]
        omega
      · have hmt : m ∈ t := by
          rcases List.mem_cons.mp hm with h | h
          · exact absurd h.symm hae
          · exact h
        have h1 : (a :: t).filter (fun e => e ≠ m) = a :: t.filter (fun e => e ≠ m) := by
          simp [List.filter_cons, hae]
        have hpos : 0 < t.countP p := List.countP_pos_iff.mpr ⟨m, hmt, hpm⟩
        rw [h1, List.countP_cons, List.countP_cons, ih hndt hmt]
        omega

/-- Removing one occurrence of a member of a nodup list by filtering
shortens it by exactly one. -/
theorem length_filter_ne_of_mem (l : List CacheEntry) (m : CacheEntry)
    (hnd : l.Nodup) (hm : m ∈ l) :
    (l.filter (fun e => e ≠ m)).length = l.length - 1 := by
  induction l with
  | nil => cases hm
  | cons a t ih =>
      obtain ⟨hnota, hndt⟩ := List.nodup_cons.mp hnd
      by_cases hae : a = m
      · have hnota' : m ∉ t := hae ▸ hnota
        have h1 : (a :: t).filter (fun e => e ≠ m) = t.filter (fun e => e ≠ m) := by
          simp [List.filter_cons, hae]
        have h2 : t.filter (fun e => e ≠ m) = t :=
          List.filter_eq_self.mpr (fun e he => by
            simp only [ne_eq, decide_eq_true_eq]
            intro hem; exact hnota' (hem ▸ he))
        rw [h1, h2]
        simp
      · have hmt : m ∈ t := by
          rcases List.mem_cons.mp hm with h | h
          · exact absurd h.symm hae
          · exact h
        have h1 : (a :: t).filter (fun e => e ≠ m) = a :: t.filter (fun e => e ≠ m) := by
          simp [List.filter_cons, hae]
        have hpos : 0 < t.length := List.length_pos.mpr (by
          intro hnil; rw [hnil] at hmt; cases hmt)
        rw [h1, List.length_cons, List.length_cons, ih hndt hmt]
        omega

/-- When the cache is already within capacity the eviction loop exits at
once whatever the fuel. -/
theorem evictGo_stop (fuel : ℕ) (cache : List CacheEntry)
    (h : cache.length ≤ MAX_CHUNKS) : evictGo fuel cache = cache := by
  cases fuel with
  | zero => rfl
  | succ fuel => rw [evictGo, if_neg (by omega)]

/-- General form of the eviction theorem: on a cache with pairwise distinct
keys and pairwise distinct `used_time` stamps holding `MAX_CHUNKS + k`
entries, the eviction loop keeps exactly the entries with at least `k`
strictly smaller `used_time` stamps below them, in order. -/
theorem evictLoop_removes_smallest (k : ℕ) :
    ∀ cache : List CacheEntry,
      (cache.map (fun e => e.1)).Nodup →
      (cache.map (fun e => e.2)).Nodup →
      cache.length = MAX_CHUNKS + k →
      evictLoop cache =
        cache.filter (fun e => k ≤ cache.countP (fun e' => e'.2 < e.2)) := by
  induction k with
  | zero =>
      intro cache hkeys hused hlen
      rw [evictLoop, evictGo_stop _ _ (by omega)]
      exact (List.filter_eq_self.mpr (fun e _ => by simp)).symm
  | succ k ih =>
      intro cache hkeys hused hlen
      have hne : cache ≠ [] := by
        intro hnil; rw [hnil] at hlen
        simp only [List.length_nil] at hlen
        omega
      obtain ⟨e0, es, rfl⟩ := List.exists_cons_of_ne_nil hne
      set cache := e0 :: es with hcache
      have hmin : minByUsed cache = some (minFold es e0) := by rw [hcache]; rfl
      set m := minFold es e0 with hm
      obtain ⟨hmem, hle⟩ := minByUsed_spec cache m hmin
      have hentries : cache.Nodup := hused.of_map
      have hstrict : ∀ e ∈ cache, e ≠ m → m.2 < e.2 := by
        intro e he hne'
        have h1 := hle e he
        have h2 : e.2 ≠ m.2 := by
          intro h2
          exact hne' (List.inj_on_of_nodup_map hused he hmem h2)
        omega
      have honce : evictOnce cache = cache.filter (fun e => e ≠ m) := by
        unfold evictOnce
        rw [hmin]
        refine List.filter_congr (fun e he => ?_)
        simp only [decide_eq_decide]
        constructor
        · intro h1 h2; exact h1 (h2 ▸ rfl)
        · intro h1 h2
          exact h1 (List.inj_on_of_nodup_map hkeys he hmem h2)
      set cache' := cache.filter (fun e => e ≠ m) with hc'
      have hlen' : cache'.length = MAX_CHUNKS + k := by
        rw [hc', length_filter_ne_of_mem cache m hentries hmem, hlen]
        omega
      have hkeys' : (cache'.map (fun e => e.1)).Nodup := by
        refine List.Nodup.sublist ?_ hkeys
        exact List.Sublist.map _ (List.filter_sublist cache)
      have hused' : (cache'.map (fun e => e.2)).Nodup := by
        refine List.Nodup.sublist ?_ hused
        exact List.Sublist.map _ (List.filter_sublist cache)
      have hstep : evictLoop cache = evictLoop cache' := by
        unfold evictLoop
        rw [hlen, hlen']
        have hsucc : MAX_CHUNKS + (k + 1) = (MAX_CHUNKS + k) + 1 := by omega
        rw [hsucc, evictGo, if_pos (by rw [hlen]; omega), honce]
      rw [hstep, ih cache' hkeys' hused' hlen']
      rw [hc', List.filter_filter]
      refine List.filter_congr (fun e he => ?_)
      by_cases hem : e = m
      · subst hem
        have hrank0 : cache.countP (fun e' => e'.2 < m.2) = 0 :=
          List.countP_eq_zero.mpr (fun e' he' => by
            simp only [decide_eq_true_eq]
            have := hle e' he'
            omega)
        simp [hrank0]
      · have hlt : m.2 < e.2 := hstrict e he hem
        have hrank' :
            cache'.countP (fun e' => e'.2 < e.2) =
              cache.countP (fun e' => e'.2 < e.2) - 1 := by
          rw [hc']
          exact countP_filter_ne_of_mem cache m _ hentries hmem (by
            simp only [decide_eq_true_eq]; exact hlt)
        have hrankpos : 0 < cache.countP (fun e' => e'.2 < e.2) :=
          List.countP_pos_iff.mpr ⟨m, hmem, by simp only [decide_eq_true_eq]; exact hlt⟩
        have hne' : decide (e ≠ m) = true := by simp [hem]
        rw [hne', Bool.and_true, decide_eq_decide, hrank']
        omega

/-- C4: on a cache holding `MAX_CHUNKS + k` entries (`k > 0`) with pairwise
distinct `last_used` stamps (and, the cache being a `HashMap`, pairwise
distinct keys), one eviction pass removes exactly the `k` entries with the
smallest `last_used` values and leaves every other entry unchanged. -/
theorem c4_eviction_removes_k_smallest (cache : List CacheEntry) (k : ℕ)
    (hkeys : (cache.map (fun e => e.1)).Nodup)
    (hused : (cache.map (fun e => e.2)).Nodup)
    (hlen : cache.length = MAX_CHUNKS + k) (hk : 0 < k) :
    evictLoop cache =
      cache.filter (fun e => k ≤ cache.countP (fun e' => e'.2 < e.2)) :=
  evictLoop_removes_smallest k cache hkeys hused hlen

/-- Witness for C4: the hypotheses hold for a concrete 33-entry cache with
distinct keys and stamps, and the theorem applies to it with `k = 1`. -/
theorem c4_eviction_witness :
    ((evictWitnessCache.map (fun e => e.1)).Nodup ∧
      (evictWitnessCache.map (fun e => e.2)).Nodup ∧
      evictWitnessCache.length = MAX_CHUNKS + 1 ∧ 0 < 1) ∧
    evictLoop evictWitnessCache =
      evictWitnessCache.filter
        (fun e => 1 ≤ evictWitnessCache.countP (fun e' => e'.2 < e.2)) :=
  ⟨⟨by decide, by decide, by decide, by decide⟩,
    c4_eviction_removes_k_smallest evictWitnessCache 1
      (by decide) (by decide) (by decide) (by decide)⟩

/-! ### Render loop chunk requests, LOD fallback, view query (`main.rs`) -/

/-- Touching an entry never changes which keys are present. -/
theorem containsLodKey_touchLod (cache : List LodEntry) (k k' : LodKey) (now : ℕ) :
    containsLodKey (touchLod cache k now) k' = containsLodKey cache k' := by
  unfold containsLodKey touchLod
  rw [List.any_map]
  refine congrArg _ (funext (fun e => ?_))
  by_cases h : e.1 = k <;> simp [h]

/-- Key set of the cache after an insert. -/
theorem containsLodKey_insertLod (cache : List LodEntry) (k k' : LodKey) (now : ℕ) :
    containsLodKey (insertLod cache k now) k' =
      (containsLodKey cache k' || decide (k' = k)) := by
  unfold insertLod
  split_ifs with h
  · rw [containsLodKey_touchLod]
    by_cases hk : k' = k
    · subst hk; simp [h]
    · simp [hk]
  · unfold containsLodKey at *
    rw [List.any_append]
    simp [eq_comm]

/-- Touching a present key leaves its `used_time` at the touch value. -/
theorem lookupUsed_touchLod (cache : List LodEntry) (k : LodKey) (now : ℕ)
    (h : containsLodKey cache k = true) :
    lookupUsed (touchLod cache k now) k = some now := by
  induction cache with
  | nil => simp [containsLodKey] at h
  | cons e es ih =>
      by_cases he : e.1 = k
      · simp [lookupUsed, touchLod, List.find?_cons, he]
      · have h' : containsLodKey es k = true := by
          have h2 := h
          unfold containsLodKey at h2 ⊢
          rw [List.any_cons] at h2
          rcases (Bool.or_eq_true _ _).mp h2 with h1 | h1
          · exact absurd (of_decide_eq_true h1) he
          · exact h1
        simpa [lookupUsed, touchLod, List.find?_cons, he] using ih h'

/-- The pending list after a request step: appended with `c` exactly when
`c` was neither cached nor already pending. -/
theorem requestStep_needed (st : RenderState) (c : LodKey) (now : ℕ) :
    (requestStep st c now).1.needed =
      if containsLodKey st.cache c = false ∧ c ∉ st.needed
      then st.needed ++ [c] else st.needed := by
  simp only [requestStep]
  split_ifs <;> simp_all

/-- A request step never changes which keys are cached (it only touches). -/
theorem requestStep_contains (st : RenderState) (c : LodKey) (now : ℕ)
    (k : LodKey) :
    containsLodKey (requestStep st c now).1.cache k =
      containsLodKey st.cache k := by
  simp only [requestStep]
  split_ifs <;> simp [containsLodKey_touchLod]

/-- C9: requesting a cached coordinate refreshes its `last_used` and leaves
the pending list unchanged; requesting a coordinate already pending never
duplicates it; and one request step or one (synchronous) load step
preserves the invariant that no coordinate appears twice in the pending
list or is pending while cached. -/
theorem c9_request_no_duplicates (st : RenderState) (c : LodKey) (now : ℕ) :
    (containsLodKey st.cache c = true →
        (requestStep st c now).1.needed = st.needed ∧
        lookupUsed (requestStep st c now).1.cache c = some now) ∧
    (c ∈ st.needed → (requestStep st c now).1.needed = st.needed) ∧
    (RenderInv st → RenderInv (requestStep st c now).1) ∧
    (RenderInv st → RenderInv (loadStep st now)) := by
  refine ⟨?_, ?_, ?_, ?_⟩
  · intro hc
    rw [requestStep, if_pos hc]
    exact ⟨rfl, lookupUsed_touchLod st.cache c now hc⟩
  · intro hmem
    rw [requestStep_needed]
    simp [hmem]
  · rintro ⟨hnd, hfree⟩
    constructor
    · rw [requestStep_needed]
      split_ifs with h
      · simp [List.nodup_append, hnd, h.2]
      · exact hnd
    · intro c' hc'
      rw [requestStep_contains]
      rw [requestStep_needed] at hc'
      split_ifs at hc' with h
      · rcases List.mem_append.mp hc' with hm | hm
        · exact hfree c' hm
        · simp only [List.mem_singleton] at hm
          subst hm
          exact h.1
      · exact hfree c' hc'
  · rintro ⟨hnd, hfree⟩
    unfold loadStep
    cases hneed : st.needed with
    | nil =>
        rw [hneed] at hnd hfree
        exact ⟨by simpa [hneed] using hnd, by simpa [hneed] using hfree⟩
    | cons c0 rest =>
        rw [hneed] at hnd hfree
        obtain ⟨hc0, hndr⟩ := List.nodup_cons.mp hnd
        refine ⟨hndr, ?_⟩
        intro c' hc'
        rw [containsLodKey_insertLod]
        have h1 : containsLodKey st.cache c' = false :=
          hfree c' (List.mem_cons_of_mem _ hc')
        have h2 : c' ≠ c0 := by
          intro h; exact hc0 (h ▸ hc')
        simp [h1, h2]

/-- The fallback scan result never exceeds its starting index plus fuel. -/
theorem findLodGo_le (cache : List LodEntry) (cx cz : ℤ) :
    ∀ fuel l : ℕ, findLodGo cache cx cz fuel l ≤ l + fuel := by
  intro fuel
  induction fuel with
  | zero => intro l; simp [findLodGo]
  | succ fuel ih =>
      intro l
      rw [findLodGo]
      split_ifs
      · omega
      · have := ih (l + 1)
        omega

/-- Every LOD index the fallback scan skipped is absent from the cache. -/
theorem findLodGo_below (cache : List LodEntry) (cx cz : ℤ) :
    ∀ fuel l i : ℕ, l ≤ i → i < findLodGo cache cx cz fuel l →
      containsLodKey cache (cx, cz, i) = false := by
  intro fuel
  induction fuel with
  | zero =>
      intro l i hle hlt
      simp [findLodGo] at hlt
      omega
  | succ fuel ih =>
      intro l i hle hlt
      rw [findLodGo] at hlt
      split_ifs at hlt with h
      · omega
      · rcases Nat.eq_or_lt_of_le hle with rfl | hgt
        · simpa using h
        · exact ih (l + 1) i hgt hlt

/-- If the fallback scan stopped before exhausting its fuel, it stopped at
a cached LOD index. -/
theorem findLodGo_found (cache : List LodEntry) (cx cz : ℤ) :
    ∀ fuel l : ℕ, findLodGo cache cx cz fuel l < l + fuel →
      containsLodKey cache (cx, cz, findLodGo cache cx cz fuel l) = true := by
  intro fuel
  induction fuel with
  | zero =>
      intro l h
      simp [findLodGo] at h
  | succ fuel ih =>
      intro l h
      rw [findLodGo] at h ⊢
      split_ifs at h ⊢ with hc
      · exact hc
      · exact ih (l + 1) (by omega)

/-- Bounding the squared component of an integer by squares. -/
theorem abs_le_of_sq_le (a b : ℤ) (hb : 0 ≤ b) (h : a * a ≤ b * b) :
    -b ≤ a ∧ a ≤ b := by
  constructor
  · by_contra hlt
    push_neg at hlt
    nlinarith
  · by_contra hlt
    push_neg at hlt
    nlinarith

/-- C10: when the requested key `(cx, cz, lod)` is absent, the render loop
scans LOD indices upward from 0 and selects the lowest-numbered LOD present
in the cache for `(cx, cz)` -- not the LOD nearest the requested one -- and
selects nothing when none of LODs 0..4 is cached (the LOD-5 lookup that the
loop then performs also misses: as the final conjunct shows, every LOD the
view query ever requests is below 5, so no lod-5 key is ever cached). -/
theorem c10_lod_fallback (st : RenderState) (c : LodKey) (now : ℕ)
    (habs : containsLodKey st.cache c = false) :
    findLod st.cache c.1 c.2.1 ≤ 5 ∧
    (∀ l : ℕ, l < findLod st.cache c.1 c.2.1 →
        containsLodKey st.cache (c.1, c.2.1, l) = false) ∧
    (findLod st.cache c.1 c.2.1 < 5 →
        containsLodKey st.cache (c.1, c.2.1, findLod st.cache c.1 c.2.1) = true ∧
        (requestStep st c now).2 = some (c.1, c.2.1, findLod st.cache c.1 c.2.1)) ∧
    ((∀ l : ℕ, l < 5 → containsLodKey st.cache (c.1, c.2.1, l) = false) →
        containsLodKey st.cache (c.1, c.2.1, 5) = false →
        (requestStep st c now).2 = none) ∧
    (∀ x z : ℤ, ∀ t ∈ visible_chunks x z, t.2.2 < 5) := by
  refine ⟨findLodGo_le st.cache c.1 c.2.1 5 0, ?_, ?_, ?_, ?_⟩
  · intro l hl
    exact findLodGo_below st.cache c.1 c.2.1 5 0 l (Nat.zero_le l) hl
  · intro h5
    rw [findLod] at h5 ⊢
    have hfound := findLodGo_found st.cache c.1 c.2.1 5 0 (by omega)
    refine ⟨hfound, ?_⟩
    rw [requestStep, if_neg (by simp [habs])]
    simp [findLod, hfound]
  · intro hnone h5c
    have heq5 : findLodGo st.cache c.1 c.2.1 5 0 = 5 := by
      have hle5 := findLodGo_le st.cache c.1 c.2.1 5 0
      rcases Nat.lt_or_ge (findLodGo st.cache c.1 c.2.1 5 0) 5 with h | h
      · have hfound := findLodGo_found st.cache c.1 c.2.1 5 0 (by omega)
        have h2 := hnone _ h
        rw [h2] at hfound
        cases hfound
      · omega
    rw [requestStep, if_neg (by simp [habs])]
    simp only [findLod, heq5]
    rw [if_neg (by simp [h5c])]
  · intro x z t ht
    simp only [visible_chunks, List.mem_map] at ht
    obtain ⟨v, hv, rfl⟩ := ht
    have hvn : sqNorm v ≤ (VISIBLE_RADIUS : ℤ) * VISIBLE_RADIUS := by
      have h1 : v ∈ (((List.range (2 * VISIBLE_RADIUS + 1)).flatMap (fun i =>
          (List.range (2 * VISIBLE_RADIUS + 1)).map (fun j =>
            (((i : ℤ) - (VISIBLE_RADIUS : ℤ)),
              ((j : ℤ) - (VISIBLE_RADIUS : ℤ)))))).filter
        (fun v => sqNorm v ≤ (VISIBLE_RADIUS : ℤ) * VISIBLE_RADIUS)) :=
        List.mem_mergeSort.mp hv
      have h2 := (List.mem_filter.mp h1).2
      simpa using h2
    have hb1 : -4 ≤ v.1 ∧ v.1 ≤ 4 := by
      refine abs_le_of_sq_le v.1 4 (by norm_num) ?_
      have h0 : 0 ≤ v.2 * v.2 := mul_self_nonneg _
      simp only [sqNorm, VISIBLE_RADIUS] at hvn
      push_cast at hvn
      nlinarith
    have hb2 : -4 ≤ v.2 ∧ v.2 ≤ 4 := by
      refine abs_le_of_sq_le v.2 4 (by norm_num) ?_
      have h0 : 0 ≤ v.1 * v.1 := mul_self_nonneg _
      simp only [sqNorm, VISIBLE_RADIUS] at hvn
      push_cast at hvn
      nlinarith
    simp only []
    have hex : 0 ≤ x.emod 64 ∧ x.emod 64 < 64 :=
      ⟨Int.emod_nonneg x (by norm_num), Int.emod_lt_of_pos x (by norm_num)⟩
    have hez : 0 ≤ z.emod 64 ∧ z.emod 64 < 64 :=
      ⟨Int.emod_nonneg z (by norm_num), Int.emod_lt_of_pos z (by norm_num)⟩
    have hdx : chunkAlign x + v.1 * CHUNK_SIZE - x = v.1 * 64 - x.emod 64 := by
      simp [chunkAlign, CHUNK_SIZE]; ring
    have hdz : chunkAlign z + v.2 * CHUNK_SIZE - z = v.2 * 64 - z.emod 64 := by
      simp [chunkAlign, CHUNK_SIZE]; ring
    have hxb : -319 ≤ v.1 * 64 - x.emod 64 ∧ v.1 * 64 - x.emod 64 ≤ 256 := by
      constructor <;> nlinarith [hb1.1, hb1.2, hex.1, hex.2]
    have hzb : -319 ≤ v.2 * 64 - z.emod 64 ∧ v.2 * 64 - z.emod 64 ≤ 256 := by
      constructor <;> nlinarith [hb2.1, hb2.2, hez.1, hez.2]
    have hsq1 : (v.1 * 64 - x.emod 64) * (v.1 * 64 - x.emod 64) ≤ 101761 := by
      nlinarith [hxb.1, hxb.2]
    have hsq2 : (v.2 * 64 - z.emod 64) * (v.2 * 64 - z.emod 64) ≤ 101761 := by
      nlinarith [hzb.1, hzb.2]
    rw [hdx, hdz]
    have hD : ((v.1 * 64 - x.emod 64) * (v.1 * 64 - x.emod 64) +
        (v.2 * 64 - z.emod 64) * (v.2 * 64 - z.emod 64)).toNat < 562500 := by
      have n1 : 0 ≤ (v.1 * 64 - x.emod 64) * (v.1 * 64 - x.emod 64) :=
        mul_self_nonneg _
      have n2 : 0 ≤ (v.2 * 64 - z.emod 64) * (v.2 * 64 - z.emod 64) :=
        mul_self_nonneg _
      omega
    have hs : Nat.sqrt (((v.1 * 64 - x.emod 64) * (v.1 * 64 - x.emod 64) +
        (v.2 * 64 - z.emod 64) * (v.2 * 64 - z.emod 64)).toNat) < 750 :=
      Nat.sqrt_lt.mpr (by omega)
    rw [LOD_FACTOR]
    omega

/-- Witness for C9: the per-request and invariant-preservation statements
applied to the concrete state, requesting the cached key `(0,0,1)` and the
pending key `(64,0,0)`. -/
theorem c9_request_witness :
    ((requestStep renderWitnessState ((0 : ℤ), (0 : ℤ), (1 : ℕ)) 9).1.needed =
        renderWitnessState.needed ∧
      lookupUsed (requestStep renderWitnessState ((0 : ℤ), (0 : ℤ), (1 : ℕ)) 9).1.cache
        ((0 : ℤ), (0 : ℤ), (1 : ℕ)) = some 9) ∧
    (requestStep renderWitnessState ((64 : ℤ), (0 : ℤ), (0 : ℕ)) 9).1.needed =
      renderWitnessState.needed ∧
    RenderInv (requestStep renderWitnessState ((0 : ℤ), (0 : ℤ), (1 : ℕ)) 9).1 ∧
    RenderInv (loadStep renderWitnessState 9) :=
  ⟨(c9_request_no_duplicates renderWitnessState ((0 : ℤ), (0 : ℤ), (1 : ℕ)) 9).1
      (by decide),
    (c9_request_no_duplicates renderWitnessState ((64 : ℤ), (0 : ℤ), (0 : ℕ)) 9).2.1
      (by decide),
    (c9_request_no_duplicates renderWitnessState ((0 : ℤ), (0 : ℤ), (1 : ℕ)) 9).2.2.1
      (by constructor <;> decide),
    (c9_request_no_duplicates renderWitnessState ((0 : ℤ), (0 : ℤ), (1 : ℕ)) 9).2.2.2
      (by constructor <;> decide)⟩

/-- Witness for C10: the fallback characterisation applied to the concrete
state, requesting the absent key `(0,0,0)`. -/
theorem c10_lod_fallback_witness :
    containsLodKey renderWitnessState.cache ((0 : ℤ), (0 : ℤ), (0 : ℕ)) = false ∧
    (findLod renderWitnessState.cache 0 0 ≤ 5 ∧
      (∀ l : ℕ, l < findLod renderWitnessState.cache 0 0 →
          containsLodKey renderWitnessState.cache (0, 0, l) = false) ∧
      (findLod renderWitnessState.cache 0 0 < 5 →
          containsLodKey renderWitnessState.cache
              (0, 0, findLod renderWitnessState.cache 0 0) = true ∧
          (requestStep renderWitnessState ((0 : ℤ), (0 : ℤ), (0 : ℕ)) 9).2 =
            some (0, 0, findLod renderWitnessState.cache 0 0)) ∧
      ((∀ l : ℕ, l < 5 →
            containsLodKey renderWitnessState.cache (0, 0, l) = false) →
          containsLodKey renderWitnessState.cache (0, 0, 5) = false →
          (requestStep renderWitnessState ((0 : ℤ), (0 : ℤ), (0 : ℕ)) 9).2 = none) ∧
      (∀ x z : ℤ, ∀ t ∈ visible_chunks x z, t.2.2 < 5)) :=
  ⟨by decide,
    c10_lod_fallback renderWitnessState ((0 : ℤ), (0 : ℤ), (0 : ℕ)) 9 (by decide)⟩

/-- The enumeration key is transitive. -/
theorem spiralLE_trans (a b c : ℤ × ℤ) (hab : spiralLE a b = true)
    (hbc : spiralLE b c = true) : spiralLE a c = true := by
  simp only [spiralLE, decide_eq_true_eq] at hab hbc ⊢
  omega

/-- The enumeration key is total. -/
theorem spiralLE_total (a b : ℤ × ℤ) : (spiralLE a b || spiralLE b a) = true := by
  simp only [spiralLE, Bool.or_eq_true, decide_eq_true_eq]
  omega

/-- The view-query enumeration is sorted by its key. -/
theorem spiralOffsets_pairwise (r : ℕ) :
    (spiralOffsets r).Pairwise (fun v w => spiralLE v w = true) :=
  List.sorted_mergeSort (fun a b c => spiralLE_trans a b c)
    (fun a b => spiralLE_total a b) _

/-- Membership in the view-query enumeration is exactly the squared-radius
test. -/
theorem mem_spiralOffsets (r : ℕ) (v : ℤ × ℤ) :
    v ∈ spiralOffsets r ↔ sqNorm v ≤ (r : ℤ) * r := by
  rw [spiralOffsets, List.mem_mergeSort, List.mem_filter]
  constructor
  · intro h
    simpa using h.2
  · intro h
    refine ⟨?_, by simpa using h⟩
    rw [List.mem_flatMap]
    have hb1 : -(r : ℤ) ≤ v.1 ∧ v.1 ≤ r := by
      refine abs_le_of_sq_le v.1 r (by positivity) ?_
      have h0 : 0 ≤ v.2 * v.2 := mul_self_nonneg _
      simp only [sqNorm] at h
      nlinarith
    have hb2 : -(r : ℤ) ≤ v.2 ∧ v.2 ≤ r := by
      refine abs_le_of_sq_le v.2 r (by positivity) ?_
      have h0 : 0 ≤ v.1 * v.1 := mul_self_nonneg _
      simp only [sqNorm] at h
      nlinarith
    refine ⟨(v.1 + r).toNat, ?_, ?_⟩
    · rw [List.mem_range]
      omega
    · rw [List.mem_map]
      refine ⟨(v.2 + r).toNat, ?_, ?_⟩
      · rw [List.mem_range]
        omega
      · have e1 : (((v.1 + r).toNat : ℤ)) = v.1 + r := Int.toNat_of_nonneg (by omega)
        have e2 : (((v.2 + r).toNat : ℤ)) = v.2 + r := Int.toNat_of_nonneg (by omega)
        rw [e1, e2]
        simp

/-- C6: the view query returns exactly the chunk coordinates whose offset
from the eye's chunk lies within the configured radius (squared-distance
test), ordered by non-decreasing squared distance to the eye's chunk; in
particular the radius-2 enumeration around the origin is sorted by
non-decreasing squared distance. -/
theorem c6_view_query_order (x z : ℤ) :
    (∀ c : ℤ × ℤ,
        c ∈ (visible_chunks x z).map (fun t => (t.1, t.2.1)) ↔
          ∃ v : ℤ × ℤ, sqNorm v ≤ (VISIBLE_RADIUS : ℤ) * VISIBLE_RADIUS ∧
            c = (chunkAlign x + v.1 * CHUNK_SIZE, chunkAlign z + v.2 * CHUNK_SIZE)) ∧
    ((visible_chunks x z).map (fun t =>
        (t.1 - chunkAlign x) * (t.1 - chunkAlign x) +
          (t.2.1 - chunkAlign z) * (t.2.1 - chunkAlign z))).Sorted (· ≤ ·) ∧
    ((spiralOffsets 2).map sqNorm).Sorted (· ≤ ·) := by
  refine ⟨?_, ?_, ?_⟩
  · intro c
    rw [visible_chunks, List.map_map, List.mem_map]
    constructor
    · rintro ⟨v, hv, rfl⟩
      exact ⟨v, (mem_spiralOffsets _ v).mp hv, rfl⟩
    · rintro ⟨v, hv, rfl⟩
      exact ⟨v, (mem_spiralOffsets _ v).mpr hv, rfl⟩
  · rw [visible_chunks, List.map_map]
    refine List.Pairwise.map _ ?_ (spiralOffsets_pairwise VISIBLE_RADIUS)
    intro v w hvw
    simp only [Function.comp, spiralLE, decide_eq_true_eq] at hvw ⊢
    have h1 : sqNorm v ≤ sqNorm w := by omega
    simp only [sqNorm, CHUNK_SIZE] at h1 ⊢
    nlinarith
  · refine List.Pairwise.map _ ?_ (spiralOffsets_pairwise 2)
    intro v w hvw
    simp only [spiralLE, decide_eq_true_eq] at hvw
    omega

/-! ### Terrain generation (`terrain.rs`) -/

/-- Per-axis read analysis: the low corner index is always written, and
the high corner index is either written or carries interpolation weight
zero (only block coordinate 64 reads the unwritten plane 18, with
`fract(64/4) = 0`). -/
theorem latIdx_facts (b : ℤ) (h1 : -1 ≤ b) (h2 : b ≤ 64) :
    latIdx b ≤ 17 ∧ (latIdx b + 1 ≤ 17 ∨ rustFract4 b = 0) := by
  constructor
  · unfold latIdx; omega
  · by_cases h : b ≤ 63
    · left; unfold latIdx; omega
    · right
      have hb : b = 64 := by omega
      subst hb
      norm_num [rustFract4, rustFract, rustTrunc]

/-- One corner term of the interpolation is insensitive to the choice of
lattice as long as every index is written or some weight factor is zero. -/
theorem trilinearTermCongr (den1 den2 : ℕ → ℕ → ℕ → ℚ)
    (hagree : ∀ i j k : ℕ, i ≤ 17 → j ≤ 17 → k ≤ 17 → den1 i j k = den2 i j k)
    (i j k : ℕ) (w1 w2 w3 : ℚ)
    (hi : i ≤ 17 ∨ w1 = 0) (hj : j ≤ 17 ∨ w2 = 0) (hk : k ≤ 17 ∨ w3 = 0) :
    den1 i j k * w1 * w2 * w3 = den2 i j k * w1 * w2 * w3 := by
  rcases hi with hi | h0
  · rcases hj with hj | h0
    · rcases hk with hk | h0
      · rw [hagree i j k hi hj hk]
      · rw [h0]; ring
    · rw [h0]; ring
  · rw [h0]; ring

/-- Counterexample to C8 as stated: at halo block coordinate 64 the
interpolation's high corner index is 18, outside the written range `[0,
17]`, and that lattice entry holds the initial `0.0` rather than any
density sample (here the density noise is constantly 1). -/
theorem c8_unwritten_read_counterexample :
    latIdx 64 + 1 = 18 ∧ ¬ (latIdx 64 + 1 ≤ 17) ∧
    densityLattice gOne pZero 18 4 4 = 0 ∧
    gOne.density (pZero.1 + ((18 : ℚ) - 1) * 4) (pZero.2.1 + ((4 : ℚ) - 1) * 4)
      (pZero.2.2 + ((4 : ℚ) - 1) * 4) = 1 ∧
    ¬ claimC8Reads := by
  refine ⟨by decide, by decide, by norm_num [densityLattice], by norm_num [gOne], ?_⟩
  intro hclaim
  have := (hclaim 64 (by norm_num) (by norm_num)).2
  revert this
  decide

/-- C8 amended: the density noise is evaluated exactly at the coarse
lattice of every 4th voxel with one lattice cell of margin beyond the chunk
(indices 0..17 per axis, world offsets `-4..64`); for every haloed voxel
the low corner indices are always written, and a high corner index can
escape the written range only at block coordinate 64, where its
interpolation weight is 0 -- consequently the interpolated density reads
only evaluated entries in the sense that it depends solely on them. -/
theorem c8_lattice_reads_amended :
    (∀ (g : TerrainGenerator) (p : ℚ × ℚ × ℚ) (i j k : ℕ),
        i ≤ 17 → j ≤ 17 → k ≤ 17 →
        densityLattice g p i j k =
          g.density (p.1 + ((i : ℚ) - 1) * 4) (p.2.1 + ((j : ℚ) - 1) * 4)
            (p.2.2 + ((k : ℚ) - 1) * 4)) ∧
    (∀ b : ℤ, -1 ≤ b → b ≤ 64 →
        latIdx b ≤ 17 ∧ (latIdx b + 1 ≤ 17 ∨ rustFract4 b = 0)) ∧
    (∀ den1 den2 : ℕ → ℕ → ℕ → ℚ,
        (∀ i j k : ℕ, i ≤ 17 → j ≤ 17 → k ≤ 17 → den1 i j k = den2 i j k) →
        ∀ bx vy bz : ℤ, -1 ≤ bx → bx ≤ 64 → -1 ≤ vy → vy ≤ 64 →
          -1 ≤ bz → bz ≤ 64 →
          trilinear den1 bx vy bz = trilinear den2 bx vy bz) := by
  refine ⟨?_, ?_, ?_⟩
  · intro g p i j k hi hj hk
    rw [densityLattice, if_pos ⟨hi, hj, hk⟩]
  · intro b h1 h2
    exact latIdx_facts b h1 h2
  · intro den1 den2 hagree bx vy bz hx1 hx2 hy1 hy2 hz1 hz2
    obtain ⟨hxl, hxh⟩ := latIdx_facts bx hx1 hx2
    obtain ⟨hyl, hyh⟩ := latIdx_facts vy hy1 hy2
    obtain ⟨hzl, hzh⟩ := latIdx_facts bz hz1 hz2
    simp only [trilinear]
    refine congrArg₂ (· + ·) (congrArg₂ (· + ·) (congrArg₂ (· + ·)
      (congrArg₂ (· + ·) (congrArg₂ (· + ·) (congrArg₂ (· + ·)
        (congrArg₂ (· + ·) ?_ ?_) ?_) ?_) ?_) ?_) ?_) ?_
    · exact trilinearTermCongr den1 den2 hagree _ _ _ _ _ _
        (Or.inl hxl) (Or.inl hyl) (Or.inl hzl)
    · exact trilinearTermCongr den1 den2 hagree _ _ _ _ _ _
        (Or.inl hxl) (Or.inl hyl) hzh
    · exact trilinearTermCongr den1 den2 hagree _ _ _ _ _ _
        (Or.inl hxl) hyh (Or.inl hzl)
    · exact trilinearTermCongr den1 den2 hagree _ _ _ _ _ _
        (Or.inl hxl) hyh hzh
    · exact trilinearTermCongr den1 den2 hagree _ _ _ _ _ _
        hxh (Or.inl hyl) (Or.inl hzl)
    · exact trilinearTermCongr den1 den2 hagree _ _ _ _ _ _
        hxh (Or.inl hyl) hzh
    · exact trilinearTermCongr den1 den2 hagree _ _ _ _ _ _
        hxh hyh (Or.inl hzl)
    · exact trilinearTermCongr den1 den2 hagree _ _ _ _ _ _
        hxh hyh hzh

/-- Witness for the amended C8: the hypotheses hold for two concrete
lattices agreeing on the written range, evaluated at the halo corner. -/
theorem c8_lattice_reads_witness :
    ((∀ i j k : ℕ, i ≤ 17 → j ≤ 17 → k ≤ 17 →
        densityLattice gOne pZero i j k = (fun _ _ _ => (1 : ℚ)) i j k) ∧
      (-1 : ℤ) ≤ 64 ∧ (64 : ℤ) ≤ 64) ∧
    trilinear (densityLattice gOne pZero) 64 64 64 =
      trilinear (fun _ _ _ => (1 : ℚ)) 64 64 64 := by
  have hagree : ∀ i j k : ℕ, i ≤ 17 → j ≤ 17 → k ≤ 17 →
      densityLattice gOne pZero i j k = (fun _ _ _ => (1 : ℚ)) i j k := by
    intro i j k hi hj hk
    simp [densityLattice, gOne, hi, hj, hk]
  exact ⟨⟨hagree, by norm_num, by norm_num⟩,
    c8_lattice_reads_amended.2.2 _ _ hagree 64 64 64 (by norm_num) (by norm_num)
      (by norm_num) (by norm_num) (by norm_num) (by norm_num)⟩

/-! ### Greedy mesher (`mesh.rs`) -/

/-- The scan list enumerates exactly the interior voxels. -/
theorem mem_scanTriples (v : V3) : v ∈ scanTriples ↔ interiorV v := by
  unfold scanTriples interiorV
  simp only [List.mem_flatMap, List.mem_map, List.mem_range]
  constructor
  · rintro ⟨x, hx, y, hy, z, hz, rfl⟩
    simp only [CHUNK_SIZE]
    omega
  · rintro ⟨h1, h2, h3, h4, h5, h6⟩
    simp only [CHUNK_SIZE] at *
    refine ⟨v.1.toNat, by omega, v.2.1.toNat, by omega, v.2.2.toNat, by omega, ?_⟩
    have e1 : ((v.1.toNat : ℤ)) = v.1 := Int.toNat_of_nonneg h1
    have e2 : ((v.2.1.toNat : ℤ)) = v.2.1 := Int.toNat_of_nonneg h3
    have e3 : ((v.2.2.toNat : ℤ)) = v.2.2 := Int.toNat_of_nonneg h5
    rw [e1, e2, e3]

/-- The bitmap index is injective on interior voxels (the packed value is
below `2⁶⁴`, so the wrapping cast is the identity there). -/
theorem bbIndexV_inj (v w : V3) (hv : interiorV v) (hw : interiorV w)
    (h : bbIndexV v = bbIndexV w) : v = w := by
  unfold bbIndexV bbIndex CHUNK_SIZE at h
  unfold interiorV CHUNK_SIZE at hv hw
  have hpow : (2 : ℤ) ^ 64 = 18446744073709551616 := by norm_num
  rw [hpow] at h
  have e1 : (v.1 * 64 * 64 + v.2.1 * 64 + v.2.2).emod 18446744073709551616 =
      v.1 * 64 * 64 + v.2.1 * 64 + v.2.2 := Int.emod_eq_of_lt (by omega) (by omega)
  have e2 : (w.1 * 64 * 64 + w.2.1 * 64 + w.2.2).emod 18446744073709551616 =
      w.1 * 64 * 64 + w.2.1 * 64 + w.2.2 := Int.emod_eq_of_lt (by omega) (by omega)
  rw [e1, e2] at h
  have h1 : v.1 = w.1 ∧ v.2.1 = w.2.1 ∧ v.2.2 = w.2.2 := by omega
  obtain ⟨e1, e2, e3⟩ := h1
  exact Prod.ext e1 (Prod.ext e2 e3)

/-- Membership after the insert-fold of the mask-building loop. -/
theorem mem_insert_foldl (t : Terrain) (f : Face) (l : List V3) (n : ℕ) :
    ∀ s0 : Finset ℕ,
      (n ∈ l.foldl
        (fun s v => if exposedB t f v then insert (bbIndexV v) s else s) s0 ↔
      n ∈ s0 ∨ ∃ v ∈ l, exposedB t f v = true ∧ bbIndexV v = n) := by
  induction l with
  | nil => intro s0; simp
  | cons v l ih =>
      intro s0
      simp only [List.foldl_cons]
      rw [ih]
      by_cases hv : exposedB t f v = true
      · simp only [hv, if_true, Finset.mem_insert, List.exists_mem_cons_iff]
        tauto
      · simp only [hv, if_false, List.exists_mem_cons_iff]
        tauto

/-- Membership in the exposure bitmap. -/
theorem mem_buildMask (t : Terrain) (f : Face) (n : ℕ) :
    n ∈ buildMask t f ↔
      ∃ v, interiorV v ∧ exposedB t f v = true ∧ bbIndexV v = n := by
  rw [buildMask, mem_insert_foldl]
  simp only [Finset.not_mem_empty, false_or]
  constructor
  · rintro ⟨v, hv, he, rfl⟩
    exact ⟨v, (mem_scanTriples v).mp hv, he, rfl⟩
  · rintro ⟨v, hv, he, rfl⟩
    exact ⟨v, (mem_scanTriples v).mpr hv, he, rfl⟩

/-- The exposure bitmap read back at an interior voxel is the exposure
test. -/
theorem buildMask_contains (t : Terrain) (f : Face) (v : V3)
    (hv : interiorV v) :
    (bbIndexV v ∈ buildMask t f) ↔ exposedB t f v = true := by
  rw [mem_buildMask]
  constructor
  · rintro ⟨w, hw, he, hb⟩
    rwa [bbIndexV_inj w v hw hv hb] at he
  · intro he
    exact ⟨v, hv, he, rfl⟩

/-- Membership after the erase-fold of the unmeshing loop. -/
theorem mem_erase_foldl (g : V3 → ℕ) (l : List V3) (n : ℕ) :
    ∀ s : Finset ℕ,
      (n ∈ l.foldl (fun s' d => s'.erase (g d)) s ↔
        n ∈ s ∧ ∀ d ∈ l, g d ≠ n) := by
  induction l with
  | nil => intro s; simp
  | cons d l ih =>
      intro s
      simp only [List.foldl_cons]
      rw [ih]
      simp only [Finset.mem_erase, List.forall_mem_cons]
      tauto

/-- Membership in the box-offset enumeration. -/
theorem mem_boxTriples (dim d : V3) :
    d ∈ boxTriples dim ↔
      0 ≤ d.1 ∧ d.1 < dim.1 ∧ 0 ≤ d.2.1 ∧ d.2.1 < dim.2.1 ∧
        0 ≤ d.2.2 ∧ d.2.2 < dim.2.2 := by
  unfold boxTriples
  simp only [List.mem_flatMap, List.mem_map, List.mem_range]
  constructor
  · rintro ⟨x, hx, y, hy, z, hz, rfl⟩
    dsimp only
    omega
  · rintro ⟨h1, h2, h3, h4, h5, h6⟩
    refine ⟨d.1.toNat, by omega, d.2.1.toNat, by omega, d.2.2.toNat, by omega, ?_⟩
    have e1 : ((d.1.toNat : ℤ)) = d.1 := Int.toNat_of_nonneg h1
    have e2 : ((d.2.1.toNat : ℤ)) = d.2.1 := Int.toNat_of_nonneg h3
    have e3 : ((d.2.2.toNat : ℤ)) = d.2.2 := Int.toNat_of_nonneg h5
    rw [e1, e2, e3]

/-- A voxel lies in a rectangle exactly when it is the base plus an
enumerated offset. -/
theorem inBoxP_iff_boxTriples (p dim v : V3) :
    inBoxP (p, dim) v ↔ ∃ d ∈ boxTriples dim, v = addV p d := by
  constructor
  · intro h
    refine ⟨subV v p, ?_, ?_⟩
    · rw [mem_boxTriples]
      unfold inBoxP at h
      unfold subV
      obtain ⟨a1, a2, a3, a4, a5, a6⟩ := h
      simp only at *
      omega
    · unfold addV subV
      refine Prod.ext ?_ (Prod.ext ?_ ?_) <;> dsimp only <;> ring
  · rintro ⟨d, hd, rfl⟩
    rw [mem_boxTriples] at hd
    unfold inBoxP addV
    simp only at *
    omega

/-- The set of voxels removed by the unmeshing loop, through the bitmap
index, is exactly the rectangle. -/
theorem mem_removeBox (s : Finset ℕ) (p dim : V3) (n : ℕ) :
    n ∈ removeBox s p dim ↔
      n ∈ s ∧ ∀ d ∈ boxTriples dim, bbIndexV (addV p d) ≠ n := by
  rw [removeBox, mem_erase_foldl]

/-- Axes facts for the front/back faces: `di = z`, `dj = x`, `dk = y`. -/
theorem axesFactsA (f : Face) (hdi : f.di = ((0 : ℤ), (0 : ℤ), (1 : ℤ)))
    (hdj : f.dj = ((1 : ℤ), (0 : ℤ), (0 : ℤ)))
    (hdk : f.dk = ((0 : ℤ), (1 : ℤ), (0 : ℤ))) : AxesFacts f := by
  constructor
  · intro u hu
    simp only [scanPos, hdi, hdj, hdk, addV, smulV, interiorV, CHUNK_SIZE] at *
    omega
  · intro v hv
    refine ⟨(v.2.2, v.1, v.2.1), ?_, ?_⟩
    · simp only [interiorV, CHUNK_SIZE] at *
      omega
    · simp only [scanPos, hdi, hdj, hdk, addV, smulV]
      refine Prod.ext ?_ (Prod.ext ?_ ?_) <;> dsimp only <;> ring
  · intro q hq
    simp only [dotV, hdj, interiorV, CHUNK_SIZE] at *
    omega
  · intro q hq
    simp only [dotV, hdk, interiorV, CHUNK_SIZE] at *
    omega
  · intro q s hq hs hb
    simp only [dotV, hdj, addV, smulV, interiorV, CHUNK_SIZE] at *
    omega
  · intro q s hq hs hb
    simp only [dotV, hdk, addV, smulV, interiorV, CHUNK_SIZE] at *
    omega
  · intro q s
    simp only [dotV, hdj, addV, smulV]
    ring
  · intro q s
    simp only [dotV, hdk, addV, smulV]
    ring
  · intro p
    simp only [dotV, hdj, subV, CHUNK_SIZE]
    ring
  · intro p
    simp only [dotV, hdk, subV, CHUNK_SIZE]
    ring
  · intro p lj lk hlj hlk v
    simp only [hdj, hdk, addV, smulV, inBoxP]
    constructor
    · intro h
      refine ⟨v.1 - p.1, v.2.1 - p.2.1, by omega, by omega, by omega, by omega, ?_⟩
      refine Prod.ext ?_ (Prod.ext ?_ ?_) <;> dsimp only <;> omega
    · rintro ⟨a, b, ha1, ha2, hb1, hb2, rfl⟩
      dsimp only
      omega

/-- Axes facts for the right/left faces: `di = x`, `dj = y`, `dk = z`. -/
theorem axesFactsB (f : Face) (hdi : f.di = ((1 : ℤ), (0 : ℤ), (0 : ℤ)))
    (hdj : f.dj = ((0 : ℤ), (1 : ℤ), (0 : ℤ)))
    (hdk : f.dk = ((0 : ℤ), (0 : ℤ), (1 : ℤ))) : AxesFacts f := by
  constructor
  · intro u hu
    simp only [scanPos, hdi, hdj, hdk, addV, smulV, interiorV, CHUNK_SIZE] at *
    omega
  · intro v hv
    refine ⟨(v.1, v.2.1, v.2.2), ?_, ?_⟩
    · simp only [interiorV, CHUNK_SIZE] at *
      omega
    · simp only [scanPos, hdi, hdj, hdk, addV, smulV]
      refine Prod.ext ?_ (Prod.ext ?_ ?_) <;> dsimp only <;> ring
  · intro q hq
    simp only [dotV, hdj, interiorV, CHUNK_SIZE] at *
    omega
  · intro q hq
    simp only [dotV, hdk, interiorV, CHUNK_SIZE] at *
    omega
  · intro q s hq hs hb
    simp only [dotV, hdj, addV, smulV, interiorV, CHUNK_SIZE] at *
    omega
  · intro q s hq hs hb
    simp only [dotV, hdk, addV, smulV, interiorV, CHUNK_SIZE] at *
    omega
  · intro q s
    simp only [dotV, hdj, addV, smulV]
    ring
  · intro q s
    simp only [dotV, hdk, addV, smulV]
    ring
  · intro p
    simp only [dotV, hdj, subV, CHUNK_SIZE]
    ring
  · intro p
    simp only [dotV, hdk, subV, CHUNK_SIZE]
    ring
  · intro p lj lk hlj hlk v
    simp only [hdj, hdk, addV, smulV, inBoxP]
    constructor
    · intro h
      refine ⟨v.2.1 - p.2.1, v.2.2 - p.2.2, by omega, by omega, by omega, by omega, ?_⟩
      refine Prod.ext ?_ (Prod.ext ?_ ?_) <;> dsimp only <;> omega
    · rintro ⟨a, b, ha1, ha2, hb1, hb2, rfl⟩
      dsimp only
      omega

/-- Axes facts for the top/bottom faces: `di = y`, `dj = x`, `dk = z`. -/
theorem axesFactsC (f : Face) (hdi : f.di = ((0 : ℤ), (1 : ℤ), (0 : ℤ)))
    (hdj : f.dj = ((1 : ℤ), (0 : ℤ), (0 : ℤ)))
    (hdk : f.dk = ((0 : ℤ), (0 : ℤ), (1 : ℤ))) : AxesFacts f := by
  constructor
  · intro u hu
    simp only [scanPos, hdi, hdj, hdk, addV, smulV, interiorV, CHUNK_SIZE] at *
    omega
  · intro v hv
    refine ⟨(v.2.1, v.1, v.2.2), ?_, ?_⟩
    · simp only [interiorV, CHUNK_SIZE] at *
      omega
    · simp only [scanPos, hdi, hdj, hdk, addV, smulV]
      refine Prod.ext ?_ (Prod.ext ?_ ?_) <;> dsimp only <;> ring
  · intro q hq
    simp only [dotV, hdj, interiorV, CHUNK_SIZE] at *
    omega
  · intro q hq
    simp only [dotV, hdk, interiorV, CHUNK_SIZE] at *
    omega
  · intro q s hq hs hb
    simp only [dotV, hdj, addV, smulV, interiorV, CHUNK_SIZE] at *
    omega
  · intro q s hq hs hb
    simp only [dotV, hdk, addV, smulV, interiorV, CHUNK_SIZE] at *
    omega
  · intro q s
    simp only [dotV, hdj, addV, smulV]
    ring
  · intro q s
    simp only [dotV, hdk, addV, smulV]
    ring
  · intro p
    simp only [dotV, hdj, subV, CHUNK_SIZE]
    ring
  · intro p
    simp only [dotV, hdk, subV, CHUNK_SIZE]
    ring
  · intro p lj lk hlj hlk v
    simp only [hdj, hdk, addV, smulV, inBoxP]
    constructor
    · intro h
      refine ⟨v.1 - p.1, v.2.2 - p.2.2, by omega, by omega, by omega, by omega, ?_⟩
      refine Prod.ext ?_ (Prod.ext ?_ ?_) <;> dsimp only <;> omega
    · rintro ⟨a, b, ha1, ha2, hb1, hb2, rfl⟩
      dsimp only
      omega

/-- Every face of the static array satisfies the axes facts. -/
theorem facesAxes : ∀ i : Fin 6, AxesFacts (faces i) := by
  intro i
  match i with
  | ⟨0, _⟩ => exact axesFactsA faceFront rfl rfl rfl
  | ⟨1, _⟩ => exact axesFactsA faceBack rfl rfl rfl
  | ⟨2, _⟩ => exact axesFactsB faceRight rfl rfl rfl
  | ⟨3, _⟩ => exact axesFactsB faceLeft rfl rfl rfl
  | ⟨4, _⟩ => exact axesFactsC faceTop rfl rfl rfl
  | ⟨5, _⟩ => exact axesFactsC faceBottom rfl rfl rfl

/-- Reading the bitmap at an interior voxel through a coordinate-set
description of the bitmap. -/
theorem mask_contains_iff (m : Finset ℕ) (P : V3 → Prop)
    (hrel : ∀ n, n ∈ m ↔ ∃ w, P w ∧ bbIndexV w = n)
    (hint : ∀ w, P w → interiorV w) (v : V3) (hv : interiorV v) :
    (bbIndexV v ∈ m) ↔ P v := by
  rw [hrel]
  constructor
  · rintro ⟨w, hw, hb⟩
    rwa [bbIndexV_inj w v (hint w hw) hv hb] at hw
  · intro h
    exact ⟨v, h, rfl⟩

/-- Stepping once equals a unit scalar step. -/
theorem addV_smul_one (q dp : V3) : addV q (smulV 1 dp) = addV q dp := by
  unfold addV smulV
  refine Prod.ext ?_ (Prod.ext ?_ ?_) <;> dsimp only <;> ring

/-- A zero scalar step is the identity. -/
theorem addV_smul_zero (q dp : V3) : addV q (smulV 0 dp) = q := by
  unfold addV smulV
  refine Prod.ext ?_ (Prod.ext ?_ ?_) <;> dsimp only <;> ring

/-- Splitting a scalar step into a first step plus the rest. -/
theorem addV_smul_succ (q dp : V3) (s : ℤ) :
    addV q (smulV s dp) = addV (addV q dp) (smulV (s - 1) dp) := by
  unfold addV smulV
  refine Prod.ext ?_ (Prod.ext ?_ ?_) <;> dsimp only <;> ring

/-- The minimum of an integer list is a member below all members. -/
theorem minInt_spec (l : List ℤ) (a : ℤ) (h : l.min? = some a) :
    a ∈ l ∧ ∀ b ∈ l, a ≤ b := by
  letI : Std.Antisymm (fun (x1 x2 : ℤ) => x1 ≤ x2) :=
    ⟨fun {x y} h1 h2 => le_antisymm h1 h2⟩
  rw [List.min?_eq_some_iff (fun a => le_refl a) (fun a b => min_choice a b)
    (fun a b c => le_min_iff)] at h
  exact h

/-- Soundness of the `run_length` loop body: the result stays within
`len + fuel`, and every stepped voxel is in the mask's coordinate set with
the starting block type. -/
theorem runLengthGo_sound (t : Terrain) (m : Finset ℕ) (P : V3 → Prop)
    (hrel : ∀ n, n ∈ m ↔ ∃ w, P w ∧ bbIndexV w = n)
    (hint : ∀ w, P w → interiorV w) (dp : V3) (bt : BlockType)
    (hstep : ∀ (q : V3) (s : ℤ), interiorV q → 0 ≤ s → dotV q dp + s ≤ 63 →
      interiorV (addV q (smulV s dp)))
    (hdot : ∀ (q : V3) (s : ℤ), dotV (addV q (smulV s dp)) dp = dotV q dp + s) :
    ∀ (fuel : ℕ) (q : V3) (len : ℤ), interiorV q →
      dotV q dp + fuel ≤ 63 →
      len ≤ runLengthGo t m bt dp fuel q len ∧
      runLengthGo t m bt dp fuel q len ≤ len + fuel ∧
      ∀ s : ℤ, 1 ≤ s → s ≤ runLengthGo t m bt dp fuel q len - len →
        P (addV q (smulV s dp)) ∧ t.getV (addV q (smulV s dp)) = bt := by
  intro fuel
  induction fuel with
  | zero =>
      intro q len hq hb
      simp only [runLengthGo]
      refine ⟨le_refl _, by omega, ?_⟩
      intro s hs1 hs2
      exact absurd hs2 (by omega)
  | succ fuel ih =>
      intro q len hq hb
      have hq' : interiorV (addV q dp) := by
        have h1 := hstep q 1 hq (by omega) (by omega)
        rwa [addV_smul_one] at h1
      have hdd : dotV (addV q dp) dp = dotV q dp + 1 := by
        have h1 := hdot q 1
        rwa [addV_smul_one] at h1
      rw [runLengthGo]
      by_cases hc : bbIndexV (addV q dp) ∈ m
      · rw [if_pos hc]
        by_cases ht : t.getV (addV q dp) = bt
        · rw [if_pos ht]
          obtain ⟨ha, hb2, hc2⟩ := ih (addV q dp) (len + 1) hq' (by omega)
          refine ⟨by omega, by omega, ?_⟩
          intro s hs1 hs2
          rcases eq_or_lt_of_le hs1 with heq | hgt
          · rw [← heq, addV_smul_one]
            exact ⟨(mask_contains_iff m P hrel hint _ hq').mp hc, ht⟩
          · rw [addV_smul_succ]
            exact hc2 (s - 1) (by omega) (by omega)
        · rw [if_neg ht]
          refine ⟨le_refl _, by omega, ?_⟩
          intro s hs1 hs2
          exact absurd hs2 (by omega)
      · rw [if_neg hc]
        refine ⟨le_refl _, by omega, ?_⟩
        intro s hs1 hs2
        exact absurd hs2 (by omega)

/-- Soundness of `run_length` from a voxel of the mask's coordinate set:
length at least one, bounded by the chunk edge, and every covered voxel is
in the set with the starting block type. -/
theorem run_length_sound (t : Terrain) (m : Finset ℕ) (P : V3 → Prop)
    (hrel : ∀ n, n ∈ m ↔ ∃ w, P w ∧ bbIndexV w = n)
    (hint : ∀ w, P w → interiorV w) (dp : V3)
    (hstep : ∀ (q : V3) (s : ℤ), interiorV q → 0 ≤ s → dotV q dp + s ≤ 63 →
      interiorV (addV q (smulV s dp)))
    (hdot : ∀ (q : V3) (s : ℤ), dotV (addV q (smulV s dp)) dp = dotV q dp + s)
    (hbound : ∀ q : V3, interiorV q → 0 ≤ dotV q dp ∧ dotV q dp ≤ 63)
    (hmax : ∀ w : V3,
      dotV (subV (CHUNK_SIZE, CHUNK_SIZE, CHUNK_SIZE) w) dp = 64 - dotV w dp)
    (p : V3) (hp : P p) :
    1 ≤ run_length t m p dp ∧ dotV p dp + run_length t m p dp ≤ 64 ∧
    ∀ s : ℤ, 0 ≤ s → s < run_length t m p dp →
      P (addV p (smulV s dp)) ∧ t.getV (addV p (smulV s dp)) = t.getV p := by
  have hpint := hint p hp
  have hbp := hbound p hpint
  have hrun : run_length t m p dp =
      runLengthGo t m (t.getV p) dp ((64 - dotV p dp - 1)).toNat p 1 := by
    simp only [run_length]
    rw [hmax]
  obtain ⟨h1, h2, h3⟩ := runLengthGo_sound t m P hrel hint dp (t.getV p)
    hstep hdot ((64 - dotV p dp - 1)).toNat p 1 hpint (by omega)
  rw [hrun]
  refine ⟨by omega, by omega, ?_⟩
  intro s hs0 hsL
  rcases eq_or_lt_of_le hs0 with heq | hgt
  · rw [← heq, addV_smul_zero]
    exact ⟨hp, rfl⟩
  · exact h3 s (by omega) (by omega)

/-- Soundness of `expand_face`: the expanded rectangle contains its base
voxel and consists entirely of voxels of the mask's coordinate set. -/
theorem expand_face_sound (t : Terrain) (m : Finset ℕ) (P : V3 → Prop)
    (hrel : ∀ n, n ∈ m ↔ ∃ w, P w ∧ bbIndexV w = n)
    (hint : ∀ w, P w → interiorV w) (f : Face) (AF : AxesFacts f)
    (p : V3) (hp : P p) :
    inBoxP (p, expand_face t m f p) p ∧
    ∀ v : V3, inBoxP (p, expand_face t m f p) v → P v := by
  obtain ⟨hk1, hk2, hkS⟩ := run_length_sound t m P hrel hint f.dk
    AF.step_k AF.dot_step_k AF.dot_bound_k AF.maxlen_k p hp
  have hrowP : ∀ b : ℤ, 0 ≤ b → b < run_length t m p f.dk →
      P (addV p (smulV b f.dk)) := fun b h1 h2 => (hkS b h1 h2).1
  obtain ⟨mv, hmv⟩ : ∃ mv, ((List.range (run_length t m p f.dk).toNat).map
      (fun (k : ℕ) =>
        run_length t m (addV p (smulV (k : ℤ) f.dk)) f.dj)).min? = some mv := by
    cases hcase : ((List.range (run_length t m p f.dk).toNat).map
        (fun (k : ℕ) =>
          run_length t m (addV p (smulV (k : ℤ) f.dk)) f.dj)).min? with
    | none =>
        exfalso
        have hnil := List.min?_eq_none_iff.mp hcase
        rw [List.map_eq_nil_iff, List.range_eq_nil] at hnil
        omega
    | some mv => exact ⟨mv, rfl⟩
  obtain ⟨hmem, hle⟩ := minInt_spec _ _ hmv
  have hrow_sound : ∀ b : ℤ, 0 ≤ b → b < run_length t m p f.dk →
      1 ≤ run_length t m (addV p (smulV b f.dk)) f.dj ∧
      ∀ s : ℤ, 0 ≤ s → s < run_length t m (addV p (smulV b f.dk)) f.dj →
        P (addV (addV p (smulV b f.dk)) (smulV s f.dj)) := by
    intro b h1 h2
    obtain ⟨hr1, hr2, hrS⟩ := run_length_sound t m P hrel hint f.dj
      AF.step_j AF.dot_step_j AF.dot_bound_j AF.maxlen_j
      (addV p (smulV b f.dk)) (hrowP b h1 h2)
    exact ⟨hr1, fun s hs1 hs2 => (hrS s hs1 hs2).1⟩
  have hrow_mem : ∀ b : ℤ, 0 ≤ b → b < run_length t m p f.dk →
      run_length t m (addV p (smulV b f.dk)) f.dj ∈
        ((List.range (run_length t m p f.dk).toNat).map (fun (k : ℕ) =>
          run_length t m (addV p (smulV (k : ℤ) f.dk)) f.dj)) := by
    intro b h1 h2
    rw [List.mem_map]
    refine ⟨b.toNat, by rw [List.mem_range]; omega, ?_⟩
    rw [Int.toNat_of_nonneg h1]
  have hmv1 : 1 ≤ mv := by
    rw [List.mem_map] at hmem
    obtain ⟨k, hk, hkeq⟩ := hmem
    rw [List.mem_range] at hk
    have := (hrow_sound (k : ℤ) (by omega) (by omega)).1
    omega
  have hdim : expand_face t m f p =
      addV (addV (1, 1, 1) (smulV (run_length t m p f.dk - 1) f.dk))
        (smulV (mv - 1) f.dj) := by
    simp only [expand_face]
    rw [hmv]
  rw [hdim]
  have hbox := AF.box_iff p mv (run_length t m p f.dk) hmv1 hk1
  constructor
  · rw [hbox]
    refine ⟨0, 0, le_refl 0, by omega, le_refl 0, by omega, ?_⟩
    rw [addV_smul_zero, addV_smul_zero]
  · intro v hv
    rw [hbox] at hv
    obtain ⟨a, b, ha1, ha2, hb1, hb2, rfl⟩ := hv
    have hmvle : mv ≤ run_length t m (addV p (smulV b f.dk)) f.dj :=
      hle _ (hrow_mem b hb1 hb2)
    exact (hrow_sound b hb1 hb2).2 a ha1 (by omega)

/-- One scan iteration preserves the invariant, consuming its triple. -/
theorem scanStep_inv (t : Terrain) (f : Face) (AF : AxesFacts f) (u : V3)
    (rem : List V3) (st : MeshSt) (hu : interiorV u)
    (hinv : ScanInv t f (u :: rem) st) :
    ScanInv t f rem (meshScanStep t f st u) := by
  obtain ⟨I1, I2, I3, I4⟩ := hinv
  have hposint : interiorV (scanPos f u) := AF.interior_scan u hu
  have hintP : ∀ w, (exposedP t f w ∧ ¬ coveredP st.rects w) → interiorV w :=
    fun w hw => hw.1.1
  have hrel : ∀ n, n ∈ st.mask ↔
      ∃ w, (exposedP t f w ∧ ¬ coveredP st.rects w) ∧ bbIndexV w = n := by
    intro n
    rw [I1 n]
    constructor
    · rintro ⟨v, h1, h2, h3⟩; exact ⟨v, ⟨h1, h2⟩, h3⟩
    · rintro ⟨v, ⟨h1, h2⟩, h3⟩; exact ⟨v, h1, h2, h3⟩
  by_cases hc : bbIndexV (scanPos f u) ∈ st.mask
  · have hpP : exposedP t f (scanPos f u) ∧ ¬ coveredP st.rects (scanPos f u) :=
      (mask_contains_iff st.mask _ hrel hintP _ hposint).mp hc
    obtain ⟨hbase, hcover⟩ := expand_face_sound t st.mask _ hrel hintP f AF
      (scanPos f u) hpP
    have hstep : meshScanStep t f st u =
        ⟨removeBox st.mask (scanPos f u)
            (expand_face t st.mask f (scanPos f u)),
          st.vertices ++ quadVerts t f
            (scanPos f u, expand_face t st.mask f (scanPos f u)),
          st.elements ++ face_elements.map (fun e => st.vertices.length + e),
          st.rects ++ [(scanPos f u, expand_face t st.mask f (scanPos f u))]⟩ := by
      simp only [meshScanStep]
      rw [if_pos hc]
    rw [hstep]
    have hcov' : ∀ v, coveredP (st.rects ++
        [(scanPos f u, expand_face t st.mask f (scanPos f u))]) v ↔
        coveredP st.rects v ∨
          inBoxP (scanPos f u, expand_face t st.mask f (scanPos f u)) v := by
      intro v
      unfold coveredP
      constructor
      · rintro ⟨r, hr, hv⟩
        rcases List.mem_append.mp hr with h | h
        · exact Or.inl ⟨r, h, hv⟩
        · simp only [List.mem_singleton] at h
          subst h
          exact Or.inr hv
      · rintro (⟨r, hr, hv⟩ | hv)
        · exact ⟨r, List.mem_append.mpr (Or.inl hr), hv⟩
        · exact ⟨_, List.mem_append.mpr (Or.inr (by simp)), hv⟩
    refine ⟨?_, ?_, ?_, ?_⟩
    · intro n
      rw [mem_removeBox]
      constructor
      · rintro ⟨hn, hbox⟩
        obtain ⟨v, hv1, hv2, hv3⟩ := (I1 n).mp hn
        refine ⟨v, hv1, ?_, hv3⟩
        rw [hcov' v]
        rintro (h | h)
        · exact hv2 h
        · rw [inBoxP_iff_boxTriples] at h
          obtain ⟨d, hd, rfl⟩ := h
          exact hbox d hd hv3
      · rintro ⟨v, hv1, hv2, hv3⟩
        rw [hcov' v] at hv2
        push_neg at hv2
        obtain ⟨hv2a, hv2b⟩ := hv2
        refine ⟨(I1 n).mpr ⟨v, hv1, hv2a, hv3⟩, ?_⟩
        intro d hd heq
        have hbd : inBoxP (scanPos f u,
            expand_face t st.mask f (scanPos f u)) (addV (scanPos f u) d) := by
          rw [inBoxP_iff_boxTriples]
          exact ⟨d, hd, rfl⟩
        have hP := hcover _ hbd
        have hveq : addV (scanPos f u) d = v :=
          bbIndexV_inj _ _ (hP.1.1) hv1.1 (by rw [heq, hv3])
        rw [hveq] at hbd
        exact hv2b hbd
    · intro r hr v hv
      rcases List.mem_append.mp hr with h | h
      · exact I2 r h v hv
      · simp only [List.mem_singleton] at h
        subst h
        exact (hcover v hv).1
    · rw [List.pairwise_append]
      refine ⟨I3, by simp, ?_⟩
      intro r hr r' hr' v ⟨hv1, hv2⟩
      simp only [List.mem_singleton] at hr'
      subst hr'
      have hP := hcover v hv2
      exact hP.2 ⟨r, hr, hv1⟩
    · intro v hv hcv
      rw [hcov' v] at hcv
      push_neg at hcv
      obtain ⟨hcv1, hcv2⟩ := hcv
      obtain ⟨u', hu', hui, hue⟩ := I4 v hv hcv1
      rcases List.mem_cons.mp hu' with h | h
      · exfalso
        rw [h] at hue
        rw [← hue] at hcv2
        exact hcv2 hbase
      · exact ⟨u', h, hui, hue⟩
  · have hstep : meshScanStep t f st u = st := by
      simp only [meshScanStep]
      rw [if_neg hc]
    rw [hstep]
    refine ⟨I1, I2, I3, ?_⟩
    intro v hv hcv
    obtain ⟨u', hu', hui, hue⟩ := I4 v hv hcv
    rcases List.mem_cons.mp hu' with h | h
    · exfalso
      rw [h] at hue
      rw [hue] at hc
      exact hc ((I1 _).mpr ⟨v, hv, hcv, rfl⟩)
    · exact ⟨u', h, hui, hue⟩

/-- Folding the scan over its triples drives the invariant to the end. -/
theorem scanFold_inv (t : Terrain) (f : Face) (AF : AxesFacts f) :
    ∀ (rem : List V3) (st : MeshSt), (∀ u ∈ rem, interiorV u) →
      ScanInv t f rem st →
      ScanInv t f [] (rem.foldl (meshScanStep t f) st) := by
  intro rem
  induction rem with
  | nil => intro st _ hinv; exact hinv
  | cons u rem ih =>
      intro st h hinv
      simp only [List.foldl_cons]
      exact ih _ (fun u' hu' => h u' (List.mem_cons_of_mem _ hu'))
        (scanStep_inv t f AF u rem st (h u (List.mem_cons_self _ _)) hinv)

/-- The invariant holds at the start of a face's scan. -/
theorem scanInv_init (t : Terrain) (f : Face) (AF : AxesFacts f) :
    ScanInv t f scanTriples ⟨buildMask t f, [], [], []⟩ := by
  refine ⟨?_, ?_, ?_, ?_⟩
  · intro n
    rw [mem_buildMask]
    constructor
    · rintro ⟨v, h1, h2, h3⟩
      exact ⟨v, ⟨h1, h2⟩, by simp [coveredP], h3⟩
    · rintro ⟨v, ⟨h1, h2⟩, _, h3⟩
      exact ⟨v, h1, h2, h3⟩
  · intro r hr
    cases hr
  · exact List.Pairwise.nil
  · intro v hv _
    obtain ⟨u, hui, hue⟩ := AF.scan_surj v hv.1
    exact ⟨u, (mem_scanTriples u).mpr hui, hui, hue⟩

/-- `faceRects` unfolded, stated at the lambda level so that later proofs
can rewrite with it instead of asking the kernel to reduce the scan fold. -/
theorem faceRects_def :
    faceRects = fun t f =>
      (scanTriples.foldl (meshScanStep t f) ⟨buildMask t f, [], [], []⟩).rects :=
  rfl

/-- `meshGenFace` unfolded at the lambda level, lets zeta-reduced, for the
same reason as `faceRects_def`. -/
theorem meshGenFace_def :
    meshGenFace = fun t acc f =>
      ⟨(scanTriples.foldl (meshScanStep t f)
          ⟨buildMask t f, acc.vertices, acc.elements, []⟩).vertices,
        (scanTriples.foldl (meshScanStep t f)
          ⟨buildMask t f, acc.vertices, acc.elements, []⟩).elements,
        acc.face_ranges ++ [(acc.elements.length,
          (scanTriples.foldl (meshScanStep t f)
            ⟨buildMask t f, acc.vertices, acc.elements, []⟩).elements.length
            - acc.elements.length)]⟩ :=
  rfl

/-- The emitted rectangles of one face pass exactly partition that face's
exposed voxels. -/
theorem faceRects_partition (t : Terrain) (f : Face) (AF : AxesFacts f) :
    (∀ v : V3, coveredP (faceRects t f) v ↔ exposedP t f v) ∧
    List.Pairwise (fun r r' => ∀ v : V3, ¬ (inBoxP r v ∧ inBoxP r' v))
      (faceRects t f) := by
  have hR : faceRects t f =
      (scanTriples.foldl (meshScanStep t f) ⟨buildMask t f, [], [], []⟩).rects :=
    congrFun (congrFun faceRects_def t) f
  rw [hR]
  obtain ⟨J1, J2, J3, J4⟩ := scanFold_inv t f AF scanTriples
    ⟨buildMask t f, [], [], []⟩ (fun u hu => (mem_scanTriples u).mp hu)
    (scanInv_init t f AF)
  constructor
  · intro v
    constructor
    · rintro ⟨r, hr, hv⟩
      exact J2 r hr v hv
    · intro hv
      by_contra hcv
      obtain ⟨u, hu, -, -⟩ := J4 v hv hcv
      cases hu
  · exact J3

/-- The scan's bitmap, rectangles and vertex deltas do not depend on the
previously accumulated vertex and element buffers. -/
theorem meshScan_shape (t : Terrain) (f : Face) (l : List V3) :
    ∀ (m : Finset ℕ) (vs : List VertexData) (es : List ℕ)
      (rs : List (V3 × V3)),
      (l.foldl (meshScanStep t f) ⟨m, vs, es, rs⟩).mask =
        (l.foldl (meshScanStep t f) ⟨m, [], [], []⟩).mask ∧
      (l.foldl (meshScanStep t f) ⟨m, vs, es, rs⟩).rects =
        rs ++ (l.foldl (meshScanStep t f) ⟨m, [], [], []⟩).rects ∧
      (l.foldl (meshScanStep t f) ⟨m, vs, es, rs⟩).vertices =
        vs ++ (l.foldl (meshScanStep t f) ⟨m, [], [], []⟩).vertices := by
  induction l with
  | nil =>
      intro m vs es rs
      exact ⟨rfl, by simp, by simp⟩
  | cons u l ih =>
      intro m vs es rs
      simp only [List.foldl_cons]
      by_cases hc : bbIndexV (scanPos f u) ∈ m
      · have h1 : meshScanStep t f ⟨m, vs, es, rs⟩ u =
            ⟨removeBox m (scanPos f u) (expand_face t m f (scanPos f u)),
              vs ++ quadVerts t f
                (scanPos f u, expand_face t m f (scanPos f u)),
              es ++ face_elements.map (fun e => vs.length + e),
              rs ++ [(scanPos f u, expand_face t m f (scanPos f u))]⟩ := by
          simp only [meshScanStep]
          rw [if_pos hc]
        have h2 : meshScanStep t f ⟨m, [], [], []⟩ u =
            ⟨removeBox m (scanPos f u) (expand_face t m f (scanPos f u)),
              [] ++ quadVerts t f
                (scanPos f u, expand_face t m f (scanPos f u)),
              [] ++ face_elements.map
                (fun e => List.length ([] : List VertexData) + e),
              [] ++ [(scanPos f u, expand_face t m f (scanPos f u))]⟩ := by
          simp only [meshScanStep]
          rw [if_pos hc]
        rw [h1, h2]
        obtain ⟨g1, g2, g3⟩ := ih
          (removeBox m (scanPos f u) (expand_face t m f (scanPos f u)))
          (vs ++ quadVerts t f (scanPos f u, expand_face t m f (scanPos f u)))
          (es ++ face_elements.map (fun e => vs.length + e))
          (rs ++ [(scanPos f u, expand_face t m f (scanPos f u))])
        obtain ⟨g1', g2', g3'⟩ := ih
          (removeBox m (scanPos f u) (expand_face t m f (scanPos f u)))
          ([] ++ quadVerts t f (scanPos f u, expand_face t m f (scanPos f u)))
          ([] ++ face_elements.map
            (fun e => List.length ([] : List VertexData) + e))
          ([] ++ [(scanPos f u, expand_face t m f (scanPos f u))])
        refine ⟨g1.trans g1'.symm, ?_, ?_⟩
        · rw [g2, g2']
          simp
        · rw [g3, g3']
          simp
      · have h1 : meshScanStep t f ⟨m, vs, es, rs⟩ u = ⟨m, vs, es, rs⟩ := by
          simp only [meshScanStep]
          rw [if_neg hc]
        have h2 : meshScanStep t f ⟨m, [], [], []⟩ u = ⟨m, [], [], []⟩ := by
          simp only [meshScanStep]
          rw [if_neg hc]
        rw [h1, h2]
        exact ih m vs es rs

/-- Starting from empty buffers, the scan's vertex buffer is exactly the
quads of its emitted rectangles. -/
theorem meshScan_verts (t : Terrain) (f : Face) (l : List V3) :
    ∀ m : Finset ℕ,
      (l.foldl (meshScanStep t f) ⟨m, [], [], []⟩).vertices =
        ((l.foldl (meshScanStep t f) ⟨m, [], [], []⟩).rects).flatMap
          (quadVerts t f) := by
  induction l with
  | nil =>
      intro m
      simp
  | cons u l ih =>
      intro m
      simp only [List.foldl_cons]
      by_cases hc : bbIndexV (scanPos f u) ∈ m
      · have h2 : meshScanStep t f ⟨m, [], [], []⟩ u =
            ⟨removeBox m (scanPos f u) (expand_face t m f (scanPos f u)),
              [] ++ quadVerts t f
                (scanPos f u, expand_face t m f (scanPos f u)),
              [] ++ face_elements.map
                (fun e => List.length ([] : List VertexData) + e),
              [] ++ [(scanPos f u, expand_face t m f (scanPos f u))]⟩ := by
          simp only [meshScanStep]
          rw [if_pos hc]
        rw [h2]
        obtain ⟨-, g2, g3⟩ := meshScan_shape t f l
          (removeBox m (scanPos f u) (expand_face t m f (scanPos f u)))
          ([] ++ quadVerts t f (scanPos f u, expand_face t m f (scanPos f u)))
          ([] ++ face_elements.map
            (fun e => List.length ([] : List VertexData) + e))
          ([] ++ [(scanPos f u, expand_face t m f (scanPos f u))])
        rw [g2, g3, ih]
        simp
      · have h2 : meshScanStep t f ⟨m, [], [], []⟩ u = ⟨m, [], [], []⟩ := by
          simp only [meshScanStep]
          rw [if_neg hc]
        rw [h2]
        exact ih m

/-- Projection of a literal `MeshData`, stated generically so that uses at
large concrete fields stay propositional. -/
theorem MeshData.vertices_mk (a : List VertexData) (b : List ℕ)
    (c : List (ℕ × ℕ)) : (⟨a, b, c⟩ : MeshData).vertices = a := rfl

/-- The vertex buffer of `Mesh::gen` accumulates, face after face, exactly
the quads of the per-face emitted rectangles. -/
theorem meshGen_vertices (t : Terrain) :
    ∀ (fl : List Face) (acc : MeshData),
      (fl.foldl (meshGenFace t) acc).vertices =
        acc.vertices ++ fl.flatMap
          (fun f => (faceRects t f).flatMap (quadVerts t f)) := by
  intro fl
  induction fl with
  | nil =>
      intro acc
      simp
  | cons f fl ih =>
      intro acc
      simp only [List.foldl_cons, List.flatMap_cons]
      rw [ih]
      have hv : (meshGenFace t acc f).vertices =
          acc.vertices ++ (faceRects t f).flatMap (quadVerts t f) := by
        have hR : faceRects t f =
            (scanTriples.foldl (meshScanStep t f)
              ⟨buildMask t f, [], [], []⟩).rects :=
          congrFun (congrFun faceRects_def t) f
        have hM0 : meshGenFace t acc f =
            ⟨(scanTriples.foldl (meshScanStep t f)
                ⟨buildMask t f, acc.vertices, acc.elements, []⟩).vertices,
              (scanTriples.foldl (meshScanStep t f)
                ⟨buildMask t f, acc.vertices, acc.elements, []⟩).elements,
              acc.face_ranges ++ [(acc.elements.length,
                (scanTriples.foldl (meshScanStep t f)
                  ⟨buildMask t f, acc.vertices, acc.elements,
                    []⟩).elements.length - acc.elements.length)]⟩ :=
          congrFun (congrFun (congrFun meshGenFace_def t) acc) f
        refine ((congrArg MeshData.vertices hM0).trans
          (MeshData.vertices_mk _ _ _)).trans ?_
        obtain ⟨-, g2, g3⟩ := meshScan_shape t f scanTriples (buildMask t f)
          acc.vertices acc.elements []
        rw [g3, meshScan_verts, hR]
      rw [hv, List.append_assoc]

/-- C2: for every terrain grid and each of the six face directions, the
voxel faces covered by the rectangles emitted by `Mesh::gen` are exactly
the exposed voxels of that direction's mask, the rectangles are pairwise
disjoint (so each exposed voxel face is covered exactly once and none is
covered twice or left out), and the generated vertex buffer is precisely
the quads of those rectangles, face by face. -/
theorem c2_mesh_partition (t : Terrain) (idx : Fin 6) :
    (∀ v : V3, coveredP (faceRects t (faces idx)) v ↔
      exposedP t (faces idx) v) ∧
    List.Pairwise (fun r r' => ∀ v : V3, ¬ (inBoxP r v ∧ inBoxP r' v))
      (faceRects t (faces idx)) ∧
    (Mesh.gen t).vertices =
      (List.ofFn faces).flatMap
        (fun f => (faceRects t f).flatMap (quadVerts t f)) := by
  obtain ⟨h1, h2⟩ := faceRects_partition t (faces idx) (facesAxes idx)
  refine ⟨h1, h2, ?_⟩
  rw [Mesh.gen, meshGen_vertices]
  exact List.nil_append _

/-- Counterexample to C3 as stated: the Grass voxel at the origin has a
Water neighbour in the front direction, so the claim (Water non-opaque for
culling) marks it exposed, but the code's mask -- built with
`Block::is_opaque`, under which Water is opaque -- does not contain it. -/
theorem c3_water_culling_counterexample :
    interiorV ((0 : ℤ), (0 : ℤ), (0 : ℤ)) ∧
    claimC3Exposed tC3 faceFront ((0 : ℤ), (0 : ℤ), (0 : ℤ)) ∧
    ¬ (bbIndexV ((0 : ℤ), (0 : ℤ), (0 : ℤ)) ∈ buildMask tC3 faceFront) := by
  have hint : interiorV ((0 : ℤ), (0 : ℤ), (0 : ℤ)) := by
    norm_num [interiorV, CHUNK_SIZE]
  refine ⟨hint, ⟨by simp [tC3, Terrain.getV],
    Or.inr (by simp [tC3, Terrain.getV, addV, faceFront])⟩, ?_⟩
  rw [buildMask_contains tC3 faceFront ((0 : ℤ), (0 : ℤ), (0 : ℤ)) hint]
  simp [exposedB, tC3, Terrain.getV, addV, faceFront, BlockType.is_opaque]

/-- C3 amended: a voxel is marked exposed in direction `d` iff it is not
Air and its neighbour in direction `d` is not opaque, where
`Block::is_opaque` holds of every non-Air block -- in particular Water is
opaque for this face-culling test, so faces against Water are culled. -/
theorem c3_exposed_mask_amended (t : Terrain) (idx : Fin 6)
    (x y z : Fin 64) :
    (bbIndexV ((x : ℤ), (y : ℤ), (z : ℤ)) ∈ buildMask t (faces idx)) ↔
      (t.get (x : ℤ) (y : ℤ) (z : ℤ) ≠ BlockType.BlockAir ∧
        BlockType.is_opaque (t.get ((x : ℤ) + (faces idx).normal.1)
          ((y : ℤ) + (faces idx).normal.2.1)
          ((z : ℤ) + (faces idx).normal.2.2)) = false) := by
  have hint : interiorV ((x : ℤ), (y : ℤ), (z : ℤ)) := by
    have hx := x.isLt
    have hy := y.isLt
    have hz := z.isLt
    unfold interiorV CHUNK_SIZE
    refine ⟨?_, ?_, ?_, ?_, ?_, ?_⟩ <;> dsimp only <;> omega
  rw [buildMask_contains t (faces idx) _ hint]
  unfold exposedB Terrain.getV Terrain.get addV
  simp only [Bool.and_eq_true, Bool.not_eq_true', decide_eq_false_iff_not,
    Bool.not_eq_eq_eq_not, Bool.not_true]

/-- C7: terrain generation and meshing are pure functions of the seed-
derived noise sources, the chunk origin and the grid; two runs on equal
inputs are definitionally equal, independent of call order (the Rust
`gen` only reads `&self` and its arguments; the model has no state at
all). -/
theorem c7_generation_deterministic (g : TerrainGenerator) (p : ℚ × ℚ × ℚ)
    (t : Terrain) :
    TerrainGenerator.gen g p = TerrainGenerator.gen g p ∧
    Mesh.gen (TerrainGenerator.gen g p) = Mesh.gen (TerrainGenerator.gen g p) ∧
    Mesh.gen t = Mesh.gen t :=
  ⟨rfl, rfl, rfl⟩

end Cubeland
